import Mathlib

/-!
# Verification of the Viewpoints data pipeline

A shallow embedding, in Lean 4, of the data pipeline of the `vp`
scatterplot explorer (ingestion, per-column normalization, brush
selection, display subsampling), together with proofs and refutations of
the specification claims about it.

Modelling conventions:

* C++ `float` values are modelled as exact rationals (`ℚ`).  A possibly
  non-finite float (NaN, or an infinity; `std::isfinite` is false) is
  modelled by the type `F := Option ℚ`, with `none` standing for a
  non-finite value.  All the source's `isfinite` guards translate to
  `Option` matches.
* C++ `std::string` values are modelled as `List Char`, so that all token
  processing is structurally recursive and computable.
* Transcendental library primitives used by `Normalize.cpp`
  (`std::atan`, `std::log`, `std::log10`, `std::sqrt`) are not part of
  the repository; they are passed in as an explicit dictionary of
  rational-valued functions (`FloatOps`).  Theorems that depend on a
  property of such a primitive state that property as a hypothesis.
* `std::istringstream >> double` numeric parsing is likewise a library
  facility and is passed to the loader as a `parseNum` parameter.
-/

set_option allowUnsafeReducibility true
attribute [semireducible] Rat.add Rat.mul Rat.sub Rat.div Rat.inv Rat.neg

namespace VP

/-- A single-precision float value: `some q` when finite, `none` when
NaN/Inf (`std::isfinite` false). -/
abbrev F := Option ℚ

/-! ## Normalize.cpp -/

/-- The normalization modes of `Normalize.h` (`NormMode`). -/
inductive NormMode where
  | MinMax
  | ZeroMax
  | MaxAbs
  | Trim1e2
  | Trim1e3
  | ThreeSigma
  | Log10
  | Arctan
  | Rank
  | Gaussianize
deriving DecidableEq, Repr

/-- The external float primitives used by `Normalize.cpp`
(`std::sqrt`, `std::log10`, `std::atan`, `std::log`), as exact
rational-valued functions. -/
structure FloatOps where
  sqrtF : ℚ → ℚ
  log10F : ℚ → ℚ
  atanF : ℚ → ℚ
  logF : ℚ → ℚ

/-- The float literal `3.14159265f` of `Normalize.cpp`, at face value. -/
def pi0 : ℚ := 314159265 / 100000000

/-- `extractColumn`: extract a strided column (`data[i * stride]`). -/
def extractColumn (data : List F) (numRows stride : ℕ) : List F :=
  (List.range numRows).map (fun i => data.getD (i * stride) none)

/-- `finiteValues`: keep only the finite values of a column. -/
def finiteValues (values : List F) : List ℚ :=
  values.filterMap id

/-- One step of the `finiteMinMax` accumulation.  The C++ code starts
from the sentinels `FLT_MAX` / `FLT_LOWEST`; since `ℚ` has no largest
element this is modelled by an `Option` accumulator that is `none`
until the first finite value is seen. -/
def finiteMinMaxStep (acc : Option (ℚ × ℚ)) (x : F) : Option (ℚ × ℚ) :=
  match x with
  | none => acc
  | some v =>
    match acc with
    | none => some (v, v)
    | some (mn, mx) => some (if v < mn then v else mn, if mx < v then v else mx)

/-- `finiteMinMax`: NaN-safe min and max of a column, with the
all-non-finite fallback `(0, 1)` of the C++ code. -/
def finiteMinMax (values : List F) : ℚ × ℚ :=
  match values.foldl finiteMinMaxStep none with
  | none => (0, 1)
  | some p => p

/-- `mapToDisplay` on a single value: map `[inMin, inMax]` to
`[-0.9, 0.9]`; NaN passes through.  The zero range is replaced by 1. -/
def mapToDisplayF (inMin inMax : ℚ) (x : F) : F :=
  let range := if inMax - inMin = 0 then 1 else inMax - inMin
  x.map (fun v => (v - inMin) / range * (18/10) - 9/10)

/-- `mapToDisplay`: map all finite values of a column from
`[inMin, inMax]` to `[-0.9, 0.9]`. -/
def mapToDisplay (values : List F) (inMin inMax : ℚ) : List F :=
  values.map (mapToDisplayF inMin inMax)

/-- `clampValues` on a single value: clamp a finite value to
`[lo, hi]` (as `max(lo, min(hi, v))`); NaN passes through. -/
def clampF (lo hi : ℚ) (x : F) : F :=
  x.map (fun v => max lo (min hi v))

/-- `clampValues`: clamp all finite values of a column to `[lo, hi]`. -/
def clampValues (values : List F) (lo hi : ℚ) : List F :=
  values.map (clampF lo hi)

/-- Floor of a nonnegative rational as a natural number (the
`static_cast<size_t>` truncation applied to a nonnegative float). -/
def ratFloorNat (q : ℚ) : ℕ :=
  q.num.toNat / q.den

/-- `percentile`: linearly interpolated percentile on a pre-sorted list
of finite values. -/
def percentile (sorted : List ℚ) (p : ℚ) : ℚ :=
  if sorted = [] then 0
  else
    let idx : ℚ := p * ((sorted.length : ℚ) - 1)
    let lo : ℕ := ratFloorNat idx
    let hi : ℕ := min (lo + 1) (sorted.length - 1)
    let frac : ℚ := idx - (lo : ℚ)
    sorted.getD lo 0 * (1 - frac) + sorted.getD hi 0 * frac

/-- The repository's `erfinv` rational approximation, over the abstract
`log`/`sqrt` primitives. -/
def erfinv (ops : FloatOps) (x : ℚ) : ℚ :=
  let sgn : ℚ := if x < 0 then -1 else 1
  let x := |x|
  if 1 ≤ x then sgn * 6
  else
    let lnx := ops.logF (1 - x * x)
    let tt1 := 2 / (pi0 * (147/1000)) + (1/2) * lnx
    let tt2 := lnx / (147/1000)
    sgn * ops.sqrtF (-tt1 + ops.sqrtF (tt1 * tt1 - tt2))

/-- Sort a list of rationals ascending (`std::sort` on floats). -/
def sortQ (l : List ℚ) : List ℚ :=
  List.insertionSort (· ≤ ·) l

/-- Fuel-driven recursion for `rankGroups` (the fuel bounds the length
of the index list, so the recursion is structural and computable). -/
def rankGroupsAux (qOf : ℕ → ℚ) : ℕ → List ℕ → ℕ → List (ℕ × ℚ)
  | 0, _, _ => []
  | _, [], _ => []
  | fuel + 1, a :: rest, pos =>
    let grp := rest.takeWhile (fun k => qOf k = qOf a)
    let rest2 := rest.dropWhile (fun k => qOf k = qOf a)
    let j := pos + 1 + grp.length
    let avg : ℚ := ((pos : ℚ) + (j : ℚ) - 1) / 2
    ((a :: grp).map (fun k => (k, avg))) ++ rankGroupsAux qOf fuel rest2 j

/-- One step of the `MaxAbs` accumulation (`maxAbs = max(maxAbs, |v|)`
over finite values). -/
def maxAbsStep (m : ℚ) (x : F) : ℚ :=
  match x with
  | none => m
  | some v => max m |v|

/-- Overwrite, for each `(index, value)` pair, the entry at `index` with
the finite value `value` (the rank/Gaussianize result-filling loops). -/
def setRanks (pairs : List (ℕ × ℚ)) (init : List F) : List F :=
  pairs.foldl (fun acc p => acc.set p.1 (some p.2)) init

/-- The average-rank groups of the `Rank` mode: given the sorted list of
finite-value indices and the current start position, emit for every tied
group the pair (row index, average rank `(i + j - 1) / 2`). -/
def rankGroups (qOf : ℕ → ℚ) (l : List ℕ) (pos : ℕ) : List (ℕ × ℚ) :=
  rankGroupsAux qOf l.length l pos

/-- `NormalizeColumn`: normalize one strided column under the given
mode, producing display-ready values in `[-0.9, 0.9]` (finite inputs)
while passing non-finite values through. -/
def NormalizeColumn (ops : FloatOps) (rawData : List F)
    (numRows stride : ℕ) (mode : NormMode) : List F :=
  if numRows = 0 then []
  else
    let values := extractColumn rawData numRows stride
    match mode with
    | .MinMax =>
      let mm := finiteMinMax values
      let range := if mm.2 - mm.1 = 0 then 1 else mm.2 - mm.1
      let values := values.map (Option.map (fun v => (v - mm.1) / range))
      mapToDisplay values 0 1
    | .ZeroMax =>
      let mm := finiteMinMax values
      let mx := if mm.2 = 0 then 1 else mm.2
      let values := values.map (Option.map (fun v => v / mx))
      mapToDisplay values 0 1
    | .MaxAbs =>
      let maxAbs := values.foldl maxAbsStep 0
      let maxAbs := if maxAbs = 0 then 1 else maxAbs
      let values := values.map (Option.map (fun v => v / maxAbs))
      mapToDisplay values (-1) 1
    | .Trim1e2 =>
      let sorted := sortQ (finiteValues values)
      let lo := percentile sorted (1/100)
      let hi := percentile sorted (1 - 1/100)
      mapToDisplay (clampValues values lo hi) lo hi
    | .Trim1e3 =>
      let sorted := sortQ (finiteValues values)
      let lo := percentile sorted (1/1000)
      let hi := percentile sorted (1 - 1/1000)
      mapToDisplay (clampValues values lo hi) lo hi
    | .ThreeSigma =>
      let sum := (finiteValues values).foldl (· + ·) 0
      let sum2 := (finiteValues values).foldl (fun s v => s + v * v) 0
      let count := (finiteValues values).length
      if count = 0 then values
      else
        let mean := sum / (count : ℚ)
        let vr := sum2 / (count : ℚ) - mean * mean
        let sigma := ops.sqrtF (max vr 0)
        let sigma := if sigma = 0 then 1 else sigma
        let lo := mean - 3 * sigma
        let hi := mean + 3 * sigma
        mapToDisplay (clampValues values lo hi) lo hi
    | .Log10 =>
      let mm := finiteMinMax values
      let shift := if mm.1 ≤ 0 then 1 - mm.1 else 0
      let values := values.map (Option.map (fun v => ops.log10F (v + shift)))
      let lm := finiteMinMax values
      mapToDisplay values lm.1 lm.2
    | .Arctan =>
      let sorted := sortQ (finiteValues values)
      let median := percentile sorted (1/2)
      let q1 := percentile sorted (1/4)
      let q3 := percentile sorted (3/4)
      let iqr := q3 - q1
      let iqr := if iqr = 0 then 1 else iqr
      let values := values.map
        (Option.map (fun v => ops.atanF ((v - median) / iqr) * (2 / pi0)))
      mapToDisplay values (-1) 1
    | .Rank =>
      let n := values.length
      let finiteIdx := (List.range n).filter (fun i => (values.getD i none).isSome)
      if finiteIdx = [] then values
      else
        let qOf : ℕ → ℚ := fun i => (values.getD i none).getD 0
        let sortedIdx := List.insertionSort (fun a b => qOf a ≤ qOf b) finiteIdx
        let pairs := rankGroups qOf sortedIdx 0
        let ranks := setRanks pairs (List.replicate n none)
        let nf := finiteIdx.length
        let maxRank : ℚ := if (nf : ℚ) - 1 = 0 then 1 else (nf : ℚ) - 1
        let ranks := ranks.map (Option.map (fun r => r / maxRank))
        mapToDisplay ranks 0 1
    | .Gaussianize =>
      let n := values.length
      let finiteIdx := (List.range n).filter (fun i => (values.getD i none).isSome)
      if finiteIdx = [] then values
      else
        let qOf : ℕ → ℚ := fun i => (values.getD i none).getD 0
        let sortedIdx := List.insertionSort (fun a b => qOf a ≤ qOf b) finiteIdx
        let nf := finiteIdx.length
        let gaussOf : ℕ × ℕ → ℕ × ℚ := fun p =>
          let pq : ℚ := ((p.1 : ℚ) + 1/2) / (nf : ℚ)
          (p.2, (14142135/10000000) * erfinv ops (2 * pq - 1))
        let result := setRanks (sortedIdx.enum.map gaussOf) (List.replicate n none)
        let mm := finiteMinMax result
        mapToDisplay result mm.1 mm.2

/-- All finite entries of a normalized column lie in the display range
`[-0.9, 0.9]`. -/
def InDisplayRange (l : List F) : Prop :=
  ∀ x ∈ l, ∀ q : ℚ, x = some q → -(9/10 : ℚ) ≤ q ∧ q ≤ 9/10

instance : DecidablePred InDisplayRange := fun l => by
  unfold InDisplayRange; infer_instance

/-- A trivial instantiation of the float primitives (used to evaluate
the model at concrete inputs whose mode needs no transcendentals). -/
def ops0 : FloatOps where
  sqrtF := fun _ => 0
  log10F := fun _ => 0
  atanF := fun _ => 0
  logF := fun _ => 0

/-! ## Range lemmas for `NormalizeColumn` -/

lemma inDisplayRange_mapToDisplay (l : List F) (a b : ℚ)
    (h : ∀ x ∈ l, ∀ v : ℚ, x = some v → a ≤ v ∧ v ≤ b) :
    InDisplayRange (mapToDisplay l a b) := by
  intro y hy q hq
  rcases List.mem_map.1 hy with ⟨x, hx, rfl⟩
  cases x with
  | none => simp [mapToDisplayF] at hq
  | some v =>
    simp only [mapToDisplayF, Option.map_some', Option.some.injEq] at hq
    obtain ⟨hav, hvb⟩ := h _ hx v rfl
    by_cases hr : b - a = 0
    · rw [if_pos hr] at hq
      have hv : v = a := by linarith
      subst hv
      rw [sub_self, zero_div, zero_mul, zero_sub] at hq
      constructor <;> linarith [hq]
    · rw [if_neg hr] at hq
      have hba : a < b :=
        lt_of_le_of_ne (le_trans hav hvb) (fun he => hr (by rw [he, sub_self]))
      have h0 : 0 ≤ (v - a) / (b - a) := by
        apply div_nonneg <;> linarith
      have h1 : (v - a) / (b - a) ≤ 1 := by
        rw [div_le_one (by linarith)]; linarith
      constructor <;> nlinarith [hq, h0, h1]

lemma inDisplayRange_clamp_map (l : List F) (lo hi : ℚ) :
    InDisplayRange (mapToDisplay (clampValues l lo hi) lo hi) := by
  rcases le_or_lt lo hi with hlh | hlh
  · apply inDisplayRange_mapToDisplay
    intro x hx v hv
    rcases List.mem_map.1 hx with ⟨x0, _, rfl⟩
    cases x0 with
    | none => simp [clampF] at hv
    | some w =>
      simp only [clampF, Option.map_some', Option.some.injEq] at hv
      subst hv
      exact ⟨le_max_left _ _, max_le hlh (min_le_left _ _)⟩
  · intro y hy q hq
    rcases List.mem_map.1 hy with ⟨x, hx, rfl⟩
    rcases List.mem_map.1 hx with ⟨x0, _, rfl⟩
    cases x0 with
    | none => simp [mapToDisplayF, clampF] at hq
    | some w =>
      have hcl : clampF lo hi (some w) = some lo := by
        simp only [clampF, Option.map_some', Option.some.injEq]
        exact max_eq_left (le_of_lt (lt_of_le_of_lt (min_le_left _ _) hlh))
      rw [hcl] at hq
      simp only [mapToDisplayF, Option.map_some', Option.some.injEq] at hq
      rw [if_neg (by intro h0; linarith), sub_self, zero_div, zero_mul, zero_sub] at hq
      constructor <;> linarith [hq]

lemma finiteMinMax_foldl_mono (l : List F) (a b : ℚ) :
    ∃ p : ℚ × ℚ, l.foldl finiteMinMaxStep (some (a, b)) = some p ∧ p.1 ≤ a ∧ b ≤ p.2 := by
  induction l generalizing a b with
  | nil => exact ⟨(a, b), rfl, le_refl _, le_refl _⟩
  | cons x l ih =>
    cases x with
    | none => simpa [finiteMinMaxStep] using ih a b
    | some v =>
      simp only [List.foldl_cons, finiteMinMaxStep]
      obtain ⟨p, hp, h1, h2⟩ := ih (if v < a then v else a) (if b < v then v else b)
      refine ⟨p, hp, le_trans h1 ?_, le_trans ?_ h2⟩
      · split <;> [linarith [le_of_lt (by assumption : v < a)]; exact le_refl _]
      · split <;> [linarith [le_of_lt (by assumption : b < v)]; exact le_refl _]

lemma finiteMinMax_foldl_bounds (l : List F) (acc : Option (ℚ × ℚ)) :
    ∀ x ∈ l, ∀ v : ℚ, x = some v →
      ∀ p : ℚ × ℚ, l.foldl finiteMinMaxStep acc = some p → p.1 ≤ v ∧ v ≤ p.2 := by
  induction l generalizing acc with
  | nil => intro x hx; exact absurd hx (List.not_mem_nil x)
  | cons y l ih =>
    intro x hx v hv p hp
    rcases List.mem_cons.1 hx with rfl | hx2
    · subst hv
      simp only [List.foldl_cons] at hp
      have hstep : ∃ a b, finiteMinMaxStep acc (some v) = some (a, b) ∧ a ≤ v ∧ v ≤ b := by
        cases acc with
        | none => exact ⟨v, v, rfl, le_refl v, le_refl v⟩
        | some q =>
          refine ⟨_, _, rfl, ?_, ?_⟩
          · rcases lt_or_le v q.1 with h | h
            · rw [if_pos h]
            · rw [if_neg (not_lt.2 h)]; exact h
          · rcases lt_or_le q.2 v with h | h
            · rw [if_pos h]
            · rw [if_neg (not_lt.2 h)]; exact h
      obtain ⟨a, b, hab, hav, hvb⟩ := hstep
      rw [hab] at hp
      obtain ⟨p2, hp2, hm1, hm2⟩ := finiteMinMax_foldl_mono l a b
      rw [hp] at hp2
      cases hp2
      exact ⟨le_trans hm1 hav, le_trans hvb hm2⟩
    · simp only [List.foldl_cons] at hp
      exact ih _ _ hx2 v hv p hp

lemma finiteMinMax_bounds (l : List F) :
    ∀ x ∈ l, ∀ v : ℚ, x = some v →
      (finiteMinMax l).1 ≤ v ∧ v ≤ (finiteMinMax l).2 := by
  intro x hx v hv
  unfold finiteMinMax
  rcases hfold : l.foldl finiteMinMaxStep none with _ | p
  · exfalso
    subst hv
    -- a list containing a finite value cannot fold to `none`:
    -- split l at the occurrence of `some v`
    rcases List.append_of_mem hx with ⟨s, t, rfl⟩
    rw [List.foldl_append, List.foldl_cons] at hfold
    have hsome : ∃ a b, finiteMinMaxStep (s.foldl finiteMinMaxStep none) (some v) = some (a, b) := by
      cases s.foldl finiteMinMaxStep none with
      | none => exact ⟨v, v, rfl⟩
      | some q => exact ⟨_, _, rfl⟩
    obtain ⟨a, b, hab⟩ := hsome
    rw [hab] at hfold
    obtain ⟨p2, hp2, _, _⟩ := finiteMinMax_foldl_mono t a b
    rw [hfold] at hp2
    cases hp2
  · exact finiteMinMax_foldl_bounds l none x hx v hv p hfold

lemma mem_extractColumn (data : List F) (numRows stride : ℕ) (x : F)
    (hx : x ∈ extractColumn data numRows stride) :
    ∃ i, i < numRows ∧ x = data.getD (i * stride) none := by
  rcases List.mem_map.1 hx with ⟨i, hi, rfl⟩
  exact ⟨i, List.mem_range.1 hi, rfl⟩

lemma no_finite_vacuous (l : List F) (hnil : finiteValues l = []) :
    InDisplayRange l := by
  intro x hx q hq
  subst hq
  have := List.filterMap_eq_nil_iff.1 hnil _ hx
  simp at this

lemma maxAbs_foldl_mono (l : List F) (m : ℚ) : m ≤ l.foldl maxAbsStep m := by
  induction l generalizing m with
  | nil => exact le_refl m
  | cons x l ih =>
    refine le_trans ?_ (ih (maxAbsStep m x))
    cases x with
    | none => exact le_refl m
    | some v => exact le_max_left _ _

lemma maxAbs_foldl_bound (v : ℚ) :
    ∀ l : List F, (some v : F) ∈ l → ∀ m : ℚ, |v| ≤ l.foldl maxAbsStep m := by
  intro l
  induction l with
  | nil => intro hx; exact absurd hx (List.not_mem_nil _)
  | cons y l ih =>
    intro hx m
    rcases List.mem_cons.1 hx with hy | hx2
    · rw [List.foldl_cons, ← hy]
      exact le_trans (le_max_right m |v|) (maxAbs_foldl_mono l _)
    · exact ih hx2 _

lemma length_setRanks (pairs : List (ℕ × ℚ)) (init : List F) :
    (setRanks pairs init).length = init.length := by
  unfold setRanks
  induction pairs generalizing init with
  | nil => rfl
  | cons p ps ih => rw [List.foldl_cons, ih, List.length_set]

lemma mem_setRanks (pairs : List (ℕ × ℚ)) (init : List F) (x : F)
    (hx : x ∈ setRanks pairs init) :
    x ∈ init ∨ ∃ p ∈ pairs, x = some p.2 := by
  unfold setRanks at hx
  induction pairs generalizing init with
  | nil => exact Or.inl hx
  | cons p ps ih =>
    rw [List.foldl_cons] at hx
    rcases ih _ hx with hin | ⟨p2, hp2, hxp⟩
    · rcases List.mem_or_eq_of_mem_set hin with hin2 | rfl
      · exact Or.inl hin2
      · exact Or.inr ⟨p, List.mem_cons_self _ _, rfl⟩
    · exact Or.inr ⟨p2, List.mem_cons_of_mem _ hp2, hxp⟩

lemma getD_setRanks_ne (pairs : List (ℕ × ℚ)) (init : List F) (i : ℕ)
    (h : ∀ p ∈ pairs, p.1 ≠ i) :
    (setRanks pairs init).getD i none = init.getD i none := by
  unfold setRanks
  induction pairs generalizing init with
  | nil => rfl
  | cons p ps ih =>
    rw [List.foldl_cons, ih _ (fun p2 hp2 => h p2 (List.mem_cons_of_mem _ hp2))]
    rw [List.getD_eq_getElem?_getD, List.getD_eq_getElem?_getD,
      List.getElem?_set_ne (h p (List.mem_cons_self _ _))]

lemma rankGroupsAux_mem_bounds (qOf : ℕ → ℚ) (fuel : ℕ) :
    ∀ (l : List ℕ) (pos k : ℕ) (q : ℚ), (k, q) ∈ rankGroupsAux qOf fuel l pos →
      (pos : ℚ) ≤ q ∧ q ≤ (pos : ℚ) + l.length - 1 ∧ k ∈ l := by
  induction fuel with
  | zero =>
    intro l pos k q h
    simp only [rankGroupsAux] at h
    exact absurd h (List.not_mem_nil _)
  | succ fuel ih =>
    intro l pos k q h
    match l with
    | [] =>
      simp only [rankGroupsAux] at h
      exact absurd h (List.not_mem_nil _)
    | a :: rest =>
      simp only [rankGroupsAux, List.mem_append] at h
      set grp := rest.takeWhile (fun k => qOf k = qOf a) with hgrp
      set rest2 := rest.dropWhile (fun k => qOf k = qOf a) with hrest2
      have hsplit : grp.length + rest2.length = rest.length := by
        rw [hgrp, hrest2, ← List.length_append, List.takeWhile_append_dropWhile]
      rcases h with hin | hin
      · rcases List.mem_map.1 hin with ⟨k2, hk2, hk2e⟩
        obtain ⟨rfl, rfl⟩ : k2 = k ∧ ((pos : ℚ) + ((pos + 1 + grp.length : ℕ) : ℚ) - 1) / 2 = q := by
          constructor
          · exact congrArg Prod.fst hk2e
          · exact congrArg Prod.snd hk2e
        have hglen : (grp.length : ℚ) ≤ (rest.length : ℚ) := by
          have : grp.length ≤ rest.length :=
            List.Sublist.length_le (List.takeWhile_sublist _)
          exact_mod_cast this
        refine ⟨?_, ?_, ?_⟩
        · push_cast
          linarith
        · push_cast
          simp only [List.length_cons]
          push_cast
          linarith
        · rcases List.mem_cons.1 hk2 with rfl | hk2g
          · exact List.mem_cons_self _ _
          · exact List.mem_cons_of_mem _
              (List.Sublist.mem hk2g (List.takeWhile_sublist _))
      · obtain ⟨h1, h2, h3⟩ := ih rest2 (pos + 1 + grp.length) k q hin
        have hr2 : (rest2.length : ℚ) + grp.length = (rest.length : ℚ) := by
          exact_mod_cast by omega
        refine ⟨?_, ?_, ?_⟩
        · push_cast at h1 ⊢
          linarith
        · push_cast at h2 ⊢
          simp only [List.length_cons]
          push_cast
          linarith
        · exact List.mem_cons_of_mem _ (List.Sublist.mem h3 (List.dropWhile_sublist _))

lemma rankGroups_mem_bounds (qOf : ℕ → ℚ) (l : List ℕ) (k : ℕ) (q : ℚ)
    (h : (k, q) ∈ rankGroups qOf l 0) :
    0 ≤ q ∧ q ≤ (l.length : ℚ) - 1 ∧ k ∈ l := by
  obtain ⟨h1, h2, h3⟩ := rankGroupsAux_mem_bounds qOf l.length l 0 k q h
  push_cast at h1 h2
  exact ⟨by linarith, by linarith, h3⟩

lemma arctan_scaled_bound (ops : FloatOps)
    (hatan : ∀ t : ℚ, |ops.atanF t| ≤ pi0 / 2) (t : ℚ) :
    -(1:ℚ) ≤ ops.atanF t * (2 / pi0) ∧ ops.atanF t * (2 / pi0) ≤ 1 := by
  have hpi : (0:ℚ) < pi0 := by norm_num [pi0]
  have habs : |ops.atanF t * (2 / pi0)| ≤ 1 := by
    rw [abs_mul, abs_of_pos (by positivity : (0:ℚ) < 2 / pi0)]
    calc |ops.atanF t| * (2 / pi0) ≤ (pi0 / 2) * (2 / pi0) :=
          mul_le_mul_of_nonneg_right (hatan t) (by positivity)
      _ = 1 := by field_simp
  exact abs_le.1 habs

lemma inDisplayRange_mapToDisplay_fmm (l : List F) :
    InDisplayRange (mapToDisplay l (finiteMinMax l).1 (finiteMinMax l).2) :=
  inDisplayRange_mapToDisplay l _ _ (finiteMinMax_bounds l)

lemma no_finite_of_filter_empty (values : List F)
    (h : (List.range values.length).filter
      (fun i => (values.getD i none).isSome) = []) :
    InDisplayRange values := by
  intro x hx q hq
  subst hq
  obtain ⟨i, hi, hgi⟩ := List.mem_iff_getElem.1 hx
  have h2 := List.filter_eq_nil_iff.1 h i (List.mem_range.2 hi)
  rw [List.getD_eq_getElem?_getD, List.getElem?_eq_getElem hi, hgi] at h2
  simp at h2

/-- **C1 counterexample.**  The claim "for every normalization mode and
every input column, every finite output of `NormalizeColumn` lies in
`[-0.9, 0.9]`" is false: in `ZeroMax` mode (which divides by the finite
maximum), the column `[-5, 10]` produces the output `-1.8` for its first
(finite) element, which is outside the display range. -/
theorem normalizeColumn_zeroMax_out_of_range :
    (NormalizeColumn ops0 [some (-5), some 10] 2 1 NormMode.ZeroMax).getD 0 none
        = some (-(18/10)) ∧
      ¬ InDisplayRange (NormalizeColumn ops0 [some (-5), some 10] 2 1 NormMode.ZeroMax) := by
  constructor
  · decide
  · decide

/-- **C1** (amended).  For every normalization mode other than
`ZeroMax`, and for `ZeroMax` on columns whose finite values are all
nonnegative, every finite output element of `NormalizeColumn` lies in
the display range `[-0.9, 0.9]` (non-finite elements pass through and
are not constrained).  For the `Arctan` mode this assumes the `atan`
primitive is bounded by half of the source's `pi` constant, the bound
that makes `atan(t) * (2 / 3.14159265f)` stay inside `[-1, 1]`. -/
theorem normalizeColumn_display_range (ops : FloatOps)
    (hatan : ∀ t : ℚ, |ops.atanF t| ≤ pi0 / 2)
    (rawData : List F) (numRows stride : ℕ) (mode : NormMode)
    (hzero : mode = NormMode.ZeroMax →
      ∀ x ∈ extractColumn rawData numRows stride, ∀ q : ℚ, x = some q → 0 ≤ q) :
    InDisplayRange (NormalizeColumn ops rawData numRows stride mode) := by
  unfold NormalizeColumn
  by_cases hn : numRows = 0
  · rw [if_pos hn]
    intro x hx
    exact absurd hx (List.not_mem_nil _)
  · rw [if_neg hn]
    set values := extractColumn rawData numRows stride with hvals
    cases mode with
    | MinMax =>
      dsimp only
      apply inDisplayRange_mapToDisplay
      intro x hx v hv
      rcases List.mem_map.1 hx with ⟨x0, hx0, rfl⟩
      cases x0 with
      | none => simp at hv
      | some w =>
        simp only [Option.map_some', Option.some.injEq] at hv
        obtain ⟨h1, h2⟩ := finiteMinMax_bounds values _ hx0 w rfl
        subst hv
        by_cases hr : (finiteMinMax values).2 - (finiteMinMax values).1 = 0
        · rw [if_pos hr]
          have hw : w = (finiteMinMax values).1 := by linarith
          rw [hw, sub_self, zero_div]
          norm_num
        · rw [if_neg hr]
          constructor
          · apply div_nonneg (by linarith)
            rcases lt_or_le (finiteMinMax values).1 (finiteMinMax values).2 with h | h
            · linarith
            · exact absurd (by linarith : (finiteMinMax values).2 - (finiteMinMax values).1 = 0) hr
          · rw [div_le_one]
            · linarith
            · rcases lt_or_le (finiteMinMax values).1 (finiteMinMax values).2 with h | h
              · linarith
              · exact absurd (by linarith : (finiteMinMax values).2 - (finiteMinMax values).1 = 0) hr
    | ZeroMax =>
      dsimp only
      apply inDisplayRange_mapToDisplay
      intro x hx v hv
      rcases List.mem_map.1 hx with ⟨x0, hx0, rfl⟩
      cases x0 with
      | none => simp at hv
      | some w =>
        simp only [Option.map_some', Option.some.injEq] at hv
        have hw0 : 0 ≤ w := hzero rfl _ hx0 w rfl
        have h2 : w ≤ (finiteMinMax values).2 := (finiteMinMax_bounds values _ hx0 w rfl).2
        subst hv
        by_cases hm : (finiteMinMax values).2 = 0
        · rw [if_pos hm]
          have hw : w = 0 := le_antisymm (by rw [← hm]; exact h2) hw0
          rw [hw, zero_div]
          norm_num
        · rw [if_neg hm]
          have hmpos : 0 < (finiteMinMax values).2 :=
            lt_of_le_of_ne (le_trans hw0 h2) (Ne.symm hm)
          exact ⟨div_nonneg hw0 (le_of_lt hmpos), (div_le_one hmpos).2 h2⟩
    | MaxAbs =>
      dsimp only
      apply inDisplayRange_mapToDisplay
      intro x hx v hv
      rcases List.mem_map.1 hx with ⟨x0, hx0, rfl⟩
      cases x0 with
      | none => simp at hv
      | some w =>
        simp only [Option.map_some', Option.some.injEq] at hv
        have hb : |w| ≤ values.foldl maxAbsStep 0 := maxAbs_foldl_bound w values hx0 0
        subst hv
        by_cases hm : values.foldl maxAbsStep 0 = 0
        · rw [if_pos hm]
          rw [hm] at hb
          have hw : w = 0 := abs_nonpos_iff.1 hb
          rw [hw, zero_div]
          norm_num
        · rw [if_neg hm]
          have hmpos : 0 < values.foldl maxAbsStep 0 :=
            lt_of_le_of_ne (maxAbs_foldl_mono values 0) (Ne.symm hm)
          have : |w / values.foldl maxAbsStep 0| ≤ 1 := by
            rw [abs_div, abs_of_pos hmpos, div_le_one hmpos]
            exact hb
          exact abs_le.1 this
    | Trim1e2 =>
      dsimp only
      exact inDisplayRange_clamp_map values _ _
    | Trim1e3 =>
      dsimp only
      exact inDisplayRange_clamp_map values _ _
    | ThreeSigma =>
      dsimp only
      by_cases hc : (finiteValues values).length = 0
      · rw [if_pos hc]
        exact no_finite_vacuous values (List.length_eq_zero.1 hc)
      · rw [if_neg hc]
        exact inDisplayRange_clamp_map values _ _
    | Log10 =>
      dsimp only
      exact inDisplayRange_mapToDisplay_fmm _
    | Arctan =>
      dsimp only
      apply inDisplayRange_mapToDisplay
      intro x hx v hv
      rcases List.mem_map.1 hx with ⟨x0, hx0, rfl⟩
      cases x0 with
      | none => simp at hv
      | some w =>
        simp only [Option.map_some', Option.some.injEq] at hv
        subst hv
        exact arctan_scaled_bound ops hatan _
    | Rank =>
      dsimp only
      by_cases hf : (List.range values.length).filter
          (fun i => (values.getD i none).isSome) = []
      · rw [if_pos hf]
        exact no_finite_of_filter_empty values hf
      · rw [if_neg hf]
        apply inDisplayRange_mapToDisplay
        intro x hx v hv
        rcases List.mem_map.1 hx with ⟨x0, hx0, rfl⟩
        cases x0 with
        | none => simp at hv
        | some r =>
          simp only [Option.map_some', Option.some.injEq] at hv
          subst hv
          rcases mem_setRanks _ _ _ hx0 with hrep | ⟨p, hp, hpe⟩
          · exact absurd (List.eq_of_mem_replicate hrep) (by simp)
          · obtain ⟨hp0, hp1, _⟩ := rankGroups_mem_bounds _ _ _ _ hp
            cases hpe
            rw [List.length_insertionSort] at hp1
            set nf := ((List.range values.length).filter
              (fun i => (values.getD i none).isSome)).length with hnf
            have hnf1 : 1 ≤ nf := by
              rcases Nat.eq_zero_or_pos nf with h | h
              · exact absurd (List.length_eq_zero.1 h) hf
              · exact h
            by_cases hone : (nf : ℚ) - 1 = 0
            · rw [if_pos hone]
              have hr0 : p.2 = 0 := le_antisymm (by rw [hone] at hp1; linarith) hp0
              rw [hr0, zero_div]
              norm_num
            · rw [if_neg hone]
              have hpos : 0 < (nf : ℚ) - 1 := by
                have : (1:ℚ) ≤ (nf : ℚ) := by exact_mod_cast hnf1
                rcases lt_or_le 1 (nf : ℚ) with h | h
                · linarith
                · exact absurd (by linarith : (nf:ℚ) - 1 = 0) hone
              exact ⟨div_nonneg hp0 (le_of_lt hpos), (div_le_one hpos).2 (by linarith)⟩
    | Gaussianize =>
      dsimp only
      by_cases hf : (List.range values.length).filter
          (fun i => (values.getD i none).isSome) = []
      · rw [if_pos hf]
        exact no_finite_of_filter_empty values hf
      · rw [if_neg hf]
        exact inDisplayRange_mapToDisplay_fmm _

/-- **C1 witness**: the amended range theorem applied at the spec's own
`MinMax` scenario column `[1,2,3,4,5]`. -/
theorem normalizeColumn_display_range_witness :
    InDisplayRange (NormalizeColumn ops0
      [some 1, some 2, some 3, some 4, some 5] 5 1 NormMode.MinMax) :=
  normalizeColumn_display_range ops0
    (fun t => by show |(0:ℚ)| ≤ pi0 / 2; norm_num [pi0])
    [some 1, some 2, some 3, some 4, some 5] 5 1 NormMode.MinMax
    (fun h => absurd h (by decide))

/-! ## NaN preservation (C3) -/

lemma length_extractColumn (data : List F) (n s : ℕ) :
    (extractColumn data n s).length = n := by
  simp [extractColumn]

lemma getD_extractColumn (data : List F) (n s i : ℕ) (hi : i < n) :
    (extractColumn data n s).getD i none = data.getD (i * s) none := by
  unfold extractColumn
  rw [List.getD_eq_getElem?_getD,
    List.getElem?_eq_getElem (by simp [hi]), List.getElem_map]
  simp

lemma length_mapToDisplay (l : List F) (a b : ℚ) :
    (mapToDisplay l a b).length = l.length := by
  simp [mapToDisplay]

lemma length_clampValues (l : List F) (lo hi : ℚ) :
    (clampValues l lo hi).length = l.length := by
  simp [clampValues]

lemma getD_map_of_none (g : F → F) (hg : g none = none) (l : List F) (i : ℕ)
    (h : l.getD i none = none) : (l.map g).getD i none = none := by
  rcases lt_or_le i l.length with hi | hi
  · rw [List.getD_eq_getElem?_getD, List.getElem?_eq_getElem (by simpa using hi),
      List.getElem_map]
    rw [List.getD_eq_getElem?_getD, List.getElem?_eq_getElem hi] at h
    simp only [Option.getD_some] at h
    rw [h, hg]
    rfl
  · rw [List.getD_eq_getElem?_getD, List.getElem?_eq_none (by simpa using hi)]
    rfl

lemma getD_replicate_none (n i : ℕ) :
    (List.replicate n (none : F)).getD i none = none := by
  rw [List.getD_eq_getElem?_getD, List.getElem?_replicate]
  split <;> rfl

/-- The total length of `NormalizeColumn`'s output is always the number
of rows. -/
lemma length_normalizeColumn (ops : FloatOps) (rawData : List F)
    (numRows stride : ℕ) (mode : NormMode) :
    (NormalizeColumn ops rawData numRows stride mode).length = numRows := by
  unfold NormalizeColumn
  by_cases hn : numRows = 0
  · rw [if_pos hn, hn]
    rfl
  · rw [if_neg hn]
    cases mode <;> dsimp only <;> (try split) <;>
      simp [length_mapToDisplay, length_clampValues, length_extractColumn,
        length_setRanks]

/-- **C3.**  For every normalization mode, a non-finite (NaN) input
element is mapped to a non-finite output element — never to a finite
value.  (The output has one entry per row, and the entry at the NaN
row's index is `none`.) -/
theorem normalizeColumn_nan_preserved (ops : FloatOps) (rawData : List F)
    (numRows stride : ℕ) (mode : NormMode) (i : ℕ) (hi : i < numRows)
    (hnan : rawData.getD (i * stride) none = none) :
    (NormalizeColumn ops rawData numRows stride mode).length = numRows ∧
      (NormalizeColumn ops rawData numRows stride mode).getD i none = none := by
  refine ⟨length_normalizeColumn ops rawData numRows stride mode, ?_⟩
  unfold NormalizeColumn
  have hn : ¬ numRows = 0 := by omega
  rw [if_neg hn]
  have hval : (extractColumn rawData numRows stride).getD i none = none := by
    rw [getD_extractColumn rawData numRows stride i hi, hnan]
  set values := extractColumn rawData numRows stride with hvals
  have hkey : ∀ k ∈ (List.range values.length).filter
      (fun j => (values.getD j none).isSome), k ≠ i := by
    intro k hk
    have := (List.mem_filter.1 hk).2
    intro hki
    rw [hki, hval] at this
    simp at this
  cases mode with
  | MinMax =>
    dsimp only
    exact getD_map_of_none _ rfl _ i (getD_map_of_none _ rfl _ i hval)
  | ZeroMax =>
    dsimp only
    exact getD_map_of_none _ rfl _ i (getD_map_of_none _ rfl _ i hval)
  | MaxAbs =>
    dsimp only
    exact getD_map_of_none _ rfl _ i (getD_map_of_none _ rfl _ i hval)
  | Trim1e2 =>
    dsimp only
    exact getD_map_of_none _ rfl _ i (getD_map_of_none _ rfl _ i hval)
  | Trim1e3 =>
    dsimp only
    exact getD_map_of_none _ rfl _ i (getD_map_of_none _ rfl _ i hval)
  | ThreeSigma =>
    dsimp only
    split
    · exact hval
    · exact getD_map_of_none _ rfl _ i (getD_map_of_none _ rfl _ i hval)
  | Log10 =>
    dsimp only
    exact getD_map_of_none _ rfl _ i (getD_map_of_none _ rfl _ i hval)
  | Arctan =>
    dsimp only
    exact getD_map_of_none _ rfl _ i (getD_map_of_none _ rfl _ i hval)
  | Rank =>
    dsimp only
    split
    · exact hval
    · apply getD_map_of_none _ rfl
      apply getD_map_of_none _ rfl
      rw [getD_setRanks_ne]
      · exact getD_replicate_none _ _
      · intro p hp
        obtain ⟨_, _, hmem⟩ := rankGroups_mem_bounds _ _ _ _ hp
        exact hkey p.1 ((List.mem_insertionSort _).1 hmem)
  | Gaussianize =>
    dsimp only
    split
    · exact hval
    · apply getD_map_of_none _ rfl
      rw [getD_setRanks_ne]
      · exact getD_replicate_none _ _
      · intro p hp
        rcases List.mem_map.1 hp with ⟨pr, hpr, rfl⟩
        have h2 := List.mem_enum_iff_getElem?.1 hpr
        exact hkey pr.2 ((List.mem_insertionSort _).1 (List.getElem?_mem h2))

/-- **C3 witness**: a NaN element of a two-row column stays NaN through
`Rank` normalization. -/
theorem normalizeColumn_nan_preserved_witness :
    (NormalizeColumn ops0 [none, some 1] 2 1 NormMode.Rank).length = 2 ∧
      (NormalizeColumn ops0 [none, some 1] 2 1 NormMode.Rank).getD 0 none = none :=
  normalizeColumn_nan_preserved ops0 [none, some 1] 2 1 NormMode.Rank 0
    (by decide) (by decide)

/-! ## MainFrame.cpp: brush-rectangle selection (C4, C10) -/

/-- The row-inside-rectangle test of `MainFrame::HandleBrushRect`.
Each comparison `>=` / `<=` is false when the normalized coordinate is
NaN, so a NaN row never tests inside. -/
def inRectB (xs ys : List F) (rminx rmaxx rminy rmaxy : ℚ) (r : ℕ) : Bool :=
  match xs.getD r none, ys.getD r none with
  | some x, some y =>
    decide (rminx ≤ x) && decide (x ≤ rmaxx) &&
      decide (rminy ≤ y) && decide (y ≤ rmaxy)
  | _, _ => false

/-- `MainFrame::HandleBrushRect`: apply a brush rectangle (given in the
normalized coordinate space of the active plot) to the selection
vector.  With `extend = false`, rows currently carrying `activeBrush`
are reset to 0 before the rectangle test; rows carrying other brushes
are left alone.  Every row whose normalized (x, y) falls inside the
rectangle is then assigned `activeBrush`. -/
def handleBrushRect (xs ys : List F) (sel : List ℕ) (x0 y0 x1 y1 : ℚ)
    (activeBrush : ℕ) (extend : Bool) : List ℕ :=
  let numRows := xs.length
  if numRows = 0 then sel
  else
    let rminx := min x0 x1
    let rmaxx := max x0 x1
    let rminy := min y0 y1
    let rmaxy := max y0 y1
    let sel := if sel.length ≠ numRows then List.replicate numRows 0 else sel
    let sel := if extend then sel
      else sel.map (fun s => if s = activeBrush then 0 else s)
    (List.range numRows).foldl
      (fun acc r =>
        if inRectB xs ys rminx rmaxx rminy rmaxy r then acc.set r activeBrush
        else acc)
      sel

lemma getD_foldl_condSet_ne (cond : ℕ → Bool) (v r : ℕ) (hr : cond r = false) :
    ∀ (idxs : List ℕ) (init : List ℕ),
      (idxs.foldl (fun acc j => if cond j then acc.set j v else acc) init).getD r 0
        = init.getD r 0 := by
  intro idxs
  induction idxs with
  | nil => intro init; rfl
  | cons j idxs ih =>
    intro init
    rw [List.foldl_cons, ih]
    by_cases hj : cond j = true
    · rw [if_pos hj]
      have hjr : j ≠ r := by
        intro h
        rw [h, hr] at hj
        exact Bool.false_ne_true hj
      rw [List.getD_eq_getElem?_getD, List.getD_eq_getElem?_getD,
        List.getElem?_set_ne hjr]
    · rw [if_neg hj]

lemma inRectB_of_nan (xs ys : List F) (a b c d : ℚ) (r : ℕ)
    (hnan : xs.getD r none = none ∨ ys.getD r none = none) :
    inRectB xs ys a b c d r = false := by
  unfold inRectB
  rcases hnan with h | h
  · rw [h]
  · rw [h]
    rcases hx : xs.getD r none with _ | x <;> rfl

lemma getElem_of_getD {l : List ℕ} {r v : ℕ} (hr : r < l.length)
    (h : l.getD r 0 = v) : l[r] = v := by
  rwa [List.getD_eq_getElem?_getD, List.getElem?_eq_getElem hr] at h

/-- **C4.**  Per-brush isolation of the rectangle brush: with
`extend = false` only rows currently carrying the active brush are
cleared before the rectangle test, so re-brushing with brush `B` a
rectangle that does not contain a row selected by a different brush `A`
leaves that row's selection unchanged. -/
theorem handleBrushRect_brush_isolation (xs ys : List F) (sel : List ℕ)
    (x0 y0 x1 y1 : ℚ) (A B r : ℕ)
    (hAB : A ≠ B) (hlen : sel.length = xs.length) (hr : r < xs.length)
    (hA : sel.getD r 0 = A)
    (hout : inRectB xs ys (min x0 x1) (max x0 x1) (min y0 y1) (max y0 y1) r
      = false) :
    (handleBrushRect xs ys sel x0 y0 x1 y1 B false).getD r 0 = A := by
  unfold handleBrushRect
  have h0 : ¬ xs.length = 0 := by omega
  have h1 : ¬ sel.length ≠ xs.length := fun h => h hlen
  rw [if_neg h0]
  dsimp only
  rw [getD_foldl_condSet_ne _ _ _ hout, if_neg h1, if_neg Bool.false_ne_true]
  have hrm : r < sel.length := hlen ▸ hr
  rw [List.getD_eq_getElem?_getD,
    List.getElem?_eq_getElem (by rw [List.length_map]; exact hrm),
    List.getElem_map, getElem_of_getD hrm hA, if_neg hAB]
  rfl

/-- **C4 witness**: row 0 carries brush 1 and lies outside the
rectangle `[1/2, 1] × [1/2, 1]`; re-brushing with brush 2 and
`extend = false` leaves it selected by brush 1. -/
theorem handleBrushRect_brush_isolation_witness :
    (handleBrushRect [some 0, some 1] [some 0, some 1] [1, 0]
      (1/2) (1/2) 1 1 2 false).getD 0 0 = 1 :=
  handleBrushRect_brush_isolation [some 0, some 1] [some 0, some 1] [1, 0]
    (1/2) (1/2) 1 1 1 2 0 (by decide) (by decide) (by decide) (by decide)
    (by decide)

/-- **C10.**  A row whose normalized x or y coordinate is NaN is never
assigned the active brush by the rectangle brush: with `extend = false`
its entry is cleared to 0 exactly when it carried the active brush, and
otherwise (or with `extend = true`) it is left unchanged. -/
theorem handleBrushRect_nan_never_brushed (xs ys : List F) (sel : List ℕ)
    (x0 y0 x1 y1 : ℚ) (activeBrush : ℕ) (extend : Bool) (r : ℕ)
    (hlen : sel.length = xs.length) (hr : r < xs.length)
    (hnan : xs.getD r none = none ∨ ys.getD r none = none) :
    (handleBrushRect xs ys sel x0 y0 x1 y1 activeBrush extend).getD r 0 =
      if extend = false ∧ sel.getD r 0 = activeBrush then 0
      else sel.getD r 0 := by
  unfold handleBrushRect
  have h0 : ¬ xs.length = 0 := by omega
  have h1 : ¬ sel.length ≠ xs.length := fun h => h hlen
  have hrm : r < sel.length := hlen ▸ hr
  have hsel : sel.getD r 0 = sel[r] := by
    rw [List.getD_eq_getElem?_getD, List.getElem?_eq_getElem hrm]
    rfl
  rw [if_neg h0]
  cases extend with
  | false =>
    dsimp only
    rw [getD_foldl_condSet_ne _ _ _ (inRectB_of_nan xs ys _ _ _ _ r hnan),
      if_neg h1, if_neg Bool.false_ne_true]
    rw [List.getD_eq_getElem?_getD,
      List.getElem?_eq_getElem (by rw [List.length_map]; exact hrm),
      List.getElem_map]
    by_cases hb : sel[r] = activeBrush
    · rw [if_pos hb, if_pos ⟨rfl, by rw [hsel]; exact hb⟩]
      rfl
    · rw [if_neg hb, if_neg (by rw [hsel]; exact fun h => hb h.2)]
      rw [hsel]
      rfl
  | true =>
    dsimp only
    rw [getD_foldl_condSet_ne _ _ _ (inRectB_of_nan xs ys _ _ _ _ r hnan),
      if_neg h1, if_pos rfl]
    rw [if_neg (fun h => Bool.false_ne_true h.1.symm)]

/-- **C10 witness**: row 0 of a two-row dataset has NaN x; brushing any
rectangle with brush 3 and `extend = false` clears it (it carried brush
3) instead of re-selecting it. -/
theorem handleBrushRect_nan_never_brushed_witness :
    (handleBrushRect [none, some 0] [some 0, some 0] [3, 0]
        0 0 1 1 3 false).getD 0 0 =
      if false = false ∧ ([3, 0] : List ℕ).getD 0 0 = 3 then 0
      else ([3, 0] : List ℕ).getD 0 0 :=
  handleBrushRect_nan_never_brushed [none, some 0] [some 0, some 0] [3, 0]
    0 0 1 1 3 false 0 (by decide) (by decide) (Or.inl (by decide))

/-! ## MainFrame.cpp: display subsampling (C5, C8)

`UpdatePlot`'s subsampling block is embedded with two external
parameters: the display budget (a `constexpr` equal to 4,000,000 in the
source, generalized so the theorems can be exercised on small inputs)
and the pseudo-random stream of the seeded `std::mt19937` +
`uniform_int_distribution` pair, modelled as a function of the seed,
the number of draws made so far, and the distribution's upper bound
(the library guarantees this stream is a pure function of its seed,
which is exactly what the determinism claim needs). -/

/-- `a < b` on floats: false when either side is NaN. -/
def fltB (a b : F) : Bool :=
  match a, b with
  | some x, some y => decide (x < y)
  | _, _ => false

/-- `std::pair<float, size_t>` `operator<`: lexicographic, with the
index compare deciding whenever neither float compares below the
other. -/
def pairLtB (a b : F × ℕ) : Bool :=
  fltB a.1 b.1 || (!fltB b.1 a.1 && decide (a.2 < b.2))

/-- Fold-selection function computing a minimal pair (the `top()` of
the `topK` min-heap). -/
def minSel (p m : F × ℕ) : Bool := pairLtB p m

/-- Fold-selection function computing a maximal pair (the `top()` of
the `bottomK` max-heap). -/
def maxSel (p m : F × ℕ) : Bool := pairLtB m p

/-- Fold a selection function over a nonempty collection: the heap's
distinguished (top) element. -/
def pickBy (better : F × ℕ → F × ℕ → Bool) (a : F × ℕ)
    (l : List (F × ℕ)) : F × ℕ :=
  l.foldl (fun m p => if better p m then p else m) a

lemma pickBy_cons (better : F × ℕ → F × ℕ → Bool) (a q : F × ℕ)
    (l : List (F × ℕ)) :
    pickBy better a (q :: l) = pickBy better (if better q a then q else a) l :=
  rfl

lemma pickBy_mem (better : F × ℕ → F × ℕ → Bool) :
    ∀ (l : List (F × ℕ)) (a : F × ℕ), pickBy better a l ∈ a :: l := by
  intro l
  induction l with
  | nil => intro a; exact List.mem_cons_self a []
  | cons q l ih =>
    intro a
    rw [pickBy_cons]
    rcases List.mem_cons.1 (ih (if better q a then q else a)) with he | hl
    · rw [he]
      split
      · exact List.mem_cons_of_mem _ (List.mem_cons_self _ _)
      · exact List.mem_cons_self _ _
    · exact List.mem_cons_of_mem _ (List.mem_cons_of_mem _ hl)

/-- No element of the collection "beats" the picked element, provided
the selection function is transitive, connex and irreflexive on the
elements in play (which holds for the pair order on finite values). -/
lemma pickBy_spec (better : F × ℕ → F × ℕ → Bool) (P : F × ℕ → Prop)
    (htr : ∀ x y z, P x → P y → P z →
      better x y = true → better y z = true → better x z = true)
    (htot : ∀ x y, P x → P y → better x y = false → better y x = false → x = y)
    (hirr : ∀ x, P x → better x x = false) :
    ∀ (l : List (F × ℕ)) (a : F × ℕ), P a → (∀ x ∈ l, P x) →
      ∀ p ∈ a :: l, better p (pickBy better a l) = false := by
  intro l
  induction l with
  | nil =>
    intro a hPa _ p hp
    rcases List.mem_cons.1 hp with rfl | h
    · exact hirr p hPa
    · exact absurd h (List.not_mem_nil p)
  | cons q l ih =>
    intro a hPa hPl p hp
    have hPq : P q := hPl q (List.mem_cons_self _ _)
    have hPl2 : ∀ x ∈ l, P x := fun x hx => hPl x (List.mem_cons_of_mem _ hx)
    rcases Bool.eq_false_or_eq_true (better q a) with hqa | hqa
    · rw [pickBy_cons, if_pos hqa]
      have hspec := ih q hPq hPl2
      rcases List.mem_cons.1 hp with rfl | hp2
      · -- p = a, the element dropped at this step
        rcases Bool.eq_false_or_eq_true (better p (pickBy better q l)) with hgoal | hgoal
        · exfalso
          have hPr : P (pickBy better q l) := by
            rcases List.mem_cons.1 (pickBy_mem better l q) with he | hl2
            · rw [he]; exact hPq
            · exact hPl2 _ hl2
          have h2 := htr q p (pickBy better q l) hPq hPa hPr hqa hgoal
          rw [hspec q (List.mem_cons_self _ _)] at h2
          exact Bool.false_ne_true h2
        · exact hgoal
      · exact hspec p hp2
    · rw [pickBy_cons, if_neg (by rw [hqa]; exact Bool.false_ne_true)]
      have hspec := ih a hPa hPl2
      rcases List.mem_cons.1 hp with rfl | hp2
      · exact hspec p (List.mem_cons_self _ _)
      · rcases List.mem_cons.1 hp2 with rfl | hp3
        · -- p = q, the element dropped at this step
          rcases Bool.eq_false_or_eq_true (better p (pickBy better a l)) with hgoal | hgoal
          · exfalso
            have hPr : P (pickBy better a l) := by
              rcases List.mem_cons.1 (pickBy_mem better l a) with he | hl2
              · rw [he]; exact hPa
              · exact hPl2 _ hl2
            rcases Bool.eq_false_or_eq_true (better a p) with haq | haq
            · have h2 := htr a p (pickBy better a l) hPa hPq hPr haq hgoal
              rw [hspec a (List.mem_cons_self _ _)] at h2
              exact Bool.false_ne_true h2
            · have heq := htot p a hPq hPa hqa haq
              rw [heq] at hgoal
              rw [hspec a (List.mem_cons_self _ _)] at hgoal
              exact Bool.false_ne_true hgoal
          · exact hgoal
        · exact hspec p (List.mem_cons_of_mem _ hp3)

lemma pairLtB_irrefl (x : F × ℕ) : pairLtB x x = false := by
  rcases x with ⟨xf, xi⟩
  rcases xf with _ | q <;>
    simp [pairLtB, fltB, lt_irrefl]

lemma pairLtB_trans (x y z : F × ℕ)
    (hx : x.1.isSome = true) (hy : y.1.isSome = true) (hz : z.1.isSome = true)
    (h1 : pairLtB x y = true) (h2 : pairLtB y z = true) :
    pairLtB x z = true := by
  obtain ⟨a, ha⟩ := Option.isSome_iff_exists.1 hx
  obtain ⟨b, hb⟩ := Option.isSome_iff_exists.1 hy
  obtain ⟨c, hc⟩ := Option.isSome_iff_exists.1 hz
  rcases x with ⟨xf, i⟩
  rcases y with ⟨yf, j⟩
  rcases z with ⟨zf, k⟩
  simp only at ha hb hc
  subst ha hb hc
  simp only [pairLtB, fltB, Bool.or_eq_true, Bool.and_eq_true,
    Bool.not_eq_true', decide_eq_true_eq, decide_eq_false_iff_not] at h1 h2 ⊢
  rcases h1 with h1 | ⟨h1a, h1b⟩ <;> rcases h2 with h2 | ⟨h2a, h2b⟩
  · exact Or.inl (lt_trans h1 h2)
  · exact Or.inl (lt_of_lt_of_le h1 (not_lt.1 h2a))
  · exact Or.inl (lt_of_le_of_lt (not_lt.1 h1a) h2)
  · exact Or.inr ⟨fun hca => h1a (lt_of_le_of_lt (not_lt.1 h2a) hca),
      lt_trans h1b h2b⟩

lemma pairLtB_conn (x y : F × ℕ)
    (hx : x.1.isSome = true) (hy : y.1.isSome = true)
    (h1 : pairLtB x y = false) (h2 : pairLtB y x = false) : x = y := by
  obtain ⟨a, ha⟩ := Option.isSome_iff_exists.1 hx
  obtain ⟨b, hb⟩ := Option.isSome_iff_exists.1 hy
  rcases x with ⟨xf, i⟩
  rcases y with ⟨yf, j⟩
  simp only at ha hb
  subst ha hb
  simp only [pairLtB, fltB, Bool.or_eq_false_iff, Bool.and_eq_false_iff,
    Bool.not_eq_false', decide_eq_true_eq, decide_eq_false_iff_not] at h1 h2
  obtain ⟨hab, h1b⟩ := h1
  obtain ⟨hba, h2b⟩ := h2
  have heqv : a = b := le_antisymm (not_lt.1 hba) (not_lt.1 hab)
  subst heqv
  have hij : i = j := by
    rcases h1b with h | h
    · exact absurd h (lt_irrefl a)
    · rcases h2b with h2 | h2
      · exact absurd h2 (lt_irrefl a)
      · omega
  rw [hij]

/-- `EXTREME_K`: the per-axis number of guaranteed extreme rows. -/
def EXTREME_K : ℕ := 10

/-- The heap's `top()` element: the selection-fold over its contents
(well-defined as the heap top under a strict total order, which holds
whenever all stored values are finite). -/
def topOf (selB : F × ℕ → F × ℕ → Bool) (L : List (F × ℕ)) : F × ℕ :=
  match L with
  | [] => (none, 0)
  | a :: rest => pickBy selB a rest

/-- The heap's `pop()`: remove the top element. -/
def popWorst (selB : F × ℕ → F × ℕ → Bool) (L : List (F × ℕ)) :
    List (F × ℕ) :=
  L.erase (topOf selB L)

/-- One iteration of a `findExtremes` heap loop: push `(vals[i], i)`
when the heap is not yet full or the new value beats the current top,
then pop the top when the size exceeds `EXTREME_K`. -/
def heapStep (selB : F × ℕ → F × ℕ → Bool) (cond : F → F → Bool)
    (vals : List F) (L : List (F × ℕ)) (i : ℕ) : List (F × ℕ) :=
  let v := vals.getD i none
  if decide (L.length < EXTREME_K) || cond v (topOf selB L).1 then
    let L2 := (v, i) :: L
    if EXTREME_K < L2.length then popWorst selB L2 else L2
  else L

/-- The heap contents after processing rows `0, …, t-1`. -/
def heapFold (selB : F × ℕ → F × ℕ → Bool) (cond : F → F → Bool)
    (vals : List F) (t : ℕ) : List (F × ℕ) :=
  (List.range t).foldl (heapStep selB cond vals) []

/-- The `bottomK` insertion test `vals[i] < bottomK.top().first`. -/
def condBottom (v w : F) : Bool := fltB v w

/-- The `topK` insertion test `vals[i] > topK.top().first`. -/
def condTop (v w : F) : Bool := fltB w v

/-- The `bottomK` max-heap after the `findExtremes` scan. -/
def bottomHeap (vals : List F) : List (F × ℕ) :=
  heapFold maxSel condBottom vals vals.length

/-- The `topK` min-heap after the `findExtremes` scan. -/
def topHeap (vals : List F) : List (F × ℕ) :=
  heapFold minSel condTop vals vals.length

/-- `findExtremes`: the indices pushed into `mustInclude` for one axis
(bottom-K rows, then top-K rows). -/
def findExtremes (vals : List F) : List ℕ :=
  (bottomHeap vals).map Prod.snd ++ (topHeap vals).map Prod.snd

lemma heapFold_succ (selB : F × ℕ → F × ℕ → Bool) (cond : F → F → Bool)
    (vals : List F) (t : ℕ) :
    heapFold selB cond vals (t + 1)
      = heapStep selB cond vals (heapFold selB cond vals t) t := by
  unfold heapFold
  rw [List.range_succ, List.foldl_append, List.foldl_cons, List.foldl_nil]

lemma heapFold_valid (selB : F × ℕ → F × ℕ → Bool) (cond : F → F → Bool)
    (vals : List F) : ∀ t : ℕ,
    (heapFold selB cond vals t).length ≤ EXTREME_K ∧
      ∀ p ∈ heapFold selB cond vals t, p.2 < t ∧ p = (vals.getD p.2 none, p.2) := by
  intro t
  induction t with
  | zero =>
    refine ⟨by simp [heapFold, EXTREME_K], ?_⟩
    intro p hp
    exact absurd hp (List.not_mem_nil p)
  | succ t ih =>
    obtain ⟨ihl, ihm⟩ := ih
    rw [heapFold_succ]
    dsimp only [heapStep]
    set L := heapFold selB cond vals t with hL
    by_cases hins : (decide (L.length < EXTREME_K)
        || cond (vals.getD t none) (topOf selB L).1) = true
    · rw [if_pos hins]
      have hmem2 : ∀ p ∈ (vals.getD t none, t) :: L,
          p.2 < t + 1 ∧ p = (vals.getD p.2 none, p.2) := by
        intro p hp
        rcases List.mem_cons.1 hp with rfl | hp2
        · exact ⟨Nat.lt_succ_self t, rfl⟩
        · exact ⟨Nat.lt_succ_of_lt (ihm p hp2).1, (ihm p hp2).2⟩
      by_cases hpop : EXTREME_K < ((vals.getD t none, t) :: L).length
      · rw [if_pos hpop]
        constructor
        · unfold popWorst
          have htopmem : topOf selB ((vals.getD t none, t) :: L)
              ∈ (vals.getD t none, t) :: L := pickBy_mem selB L _
          rw [List.length_erase_of_mem htopmem]
          simp only [List.length_cons]
          omega
        · intro p hp
          exact hmem2 p (List.mem_of_mem_erase hp)
      · rw [if_neg hpop]
        refine ⟨?_, hmem2⟩
        simp only [List.length_cons] at hpop ⊢
        omega
    · rw [if_neg hins]
      refine ⟨ihl, ?_⟩
      intro p hp
      exact ⟨Nat.lt_succ_of_lt (ihm p hp).1, (ihm p hp).2⟩

/-- Survival of a distinguished element through a heap pop: if every
other element in the heap "beats" `p0` under the pop-selection
function, the popped element cannot be `p0`. -/
lemma survive_pop (selB : F × ℕ → F × ℕ → Bool)
    (htr : ∀ x y z : F × ℕ, x.1.isSome = true → y.1.isSome = true →
      z.1.isSome = true → selB x y = true → selB y z = true → selB x z = true)
    (htot : ∀ x y : F × ℕ, x.1.isSome = true → y.1.isSome = true →
      selB x y = false → selB y x = false → x = y)
    (hirr : ∀ x : F × ℕ, selB x x = false)
    (L2 : List (F × ℕ)) (p0 : F × ℕ)
    (hfinL : ∀ x ∈ L2, x.1.isSome = true) (hp0 : p0 ∈ L2)
    (hother : ∀ x ∈ L2, x ≠ p0 → selB x p0 = true)
    (b : F × ℕ) (hb : b ∈ L2) (hbne : b ≠ p0) :
    p0 ∈ popWorst selB L2 := by
  have htop : p0 ≠ topOf selB L2 := by
    rcases L2 with _ | ⟨a, rest⟩
    · exact absurd hp0 (List.not_mem_nil _)
    · intro he
      have hspec := pickBy_spec selB (fun x => x.1.isSome = true)
        (fun x y z hx hy hz => htr x y z hx hy hz)
        (fun x y hx hy => htot x y hx hy)
        (fun x _ => hirr x)
        rest a (hfinL a (List.mem_cons_self _ _))
        (fun x hx => hfinL x (List.mem_cons_of_mem _ hx)) b hb
      have htopeq : topOf selB (a :: rest) = pickBy selB a rest := rfl
      rw [← htopeq, ← he] at hspec
      rw [hother b hb hbne] at hspec
      exact Bool.false_ne_true hspec.symm
  unfold popWorst
  exact (List.mem_erase_of_ne htop).2 hp0

lemma topOf_mem (selB : F × ℕ → F × ℕ → Bool) (L : List (F × ℕ))
    (h : L ≠ []) : topOf selB L ∈ L := by
  rcases L with _ | ⟨a, rest⟩
  · exact absurd rfl h
  · exact pickBy_mem selB rest a

/-- The key `findExtremes` guarantee: a row that strictly beats every
other row (under the selection order) is still in the heap after the
whole scan.  Instantiated below with the strict maximum for `topK` and
the strict minimum for `bottomK`. -/
lemma heapFold_keeps_best (selB : F × ℕ → F × ℕ → Bool) (cond : F → F → Bool)
    (vals : List F)
    (htr : ∀ x y z : F × ℕ, x.1.isSome = true → y.1.isSome = true →
      z.1.isSome = true → selB x y = true → selB y z = true → selB x z = true)
    (htot : ∀ x y : F × ℕ, x.1.isSome = true → y.1.isSome = true →
      selB x y = false → selB y x = false → x = y)
    (hirr : ∀ x : F × ℕ, selB x x = false)
    (hfin : ∀ j : ℕ, j < vals.length → (vals.getD j none).isSome = true)
    (i0 : ℕ)
    (hother : ∀ j : ℕ, j < vals.length → j ≠ i0 →
      selB (vals.getD j none, j) (vals.getD i0 none, i0) = true)
    (hcond : ∀ j : ℕ, j < vals.length → j ≠ i0 →
      cond (vals.getD i0 none) (vals.getD j none) = true) :
    ∀ t : ℕ, i0 < t → t ≤ vals.length →
      (vals.getD i0 none, i0) ∈ heapFold selB cond vals t := by
  intro t
  induction t with
  | zero => intro h _; exact absurd h (Nat.not_lt_zero i0)
  | succ t ih =>
    intro hi0t htlen
    have htlen2 : t < vals.length := htlen
    obtain ⟨hKlen, hvalid⟩ := heapFold_valid selB cond vals t
    rw [heapFold_succ]
    dsimp only [heapStep]
    set L := heapFold selB cond vals t with hLdef
    have hfinL : ∀ x ∈ L, x.1.isSome = true := by
      intro x hx
      rw [(hvalid x hx).2]
      exact hfin x.2 (lt_trans (hvalid x hx).1 htlen2)
    have hfinL2 : ∀ x ∈ (vals.getD t none, t) :: L, x.1.isSome = true := by
      intro x hx
      rcases List.mem_cons.1 hx with rfl | hx2
      · exact hfin t htlen2
      · exact hfinL x hx2
    have hLother : ∀ x ∈ L, x ≠ (vals.getD i0 none, i0) →
        selB x (vals.getD i0 none, i0) = true := by
      intro x hx hne
      obtain ⟨hxt, hxe⟩ := hvalid x hx
      have hx2 : x.2 ≠ i0 := by
        intro he
        apply hne
        rw [hxe, he]
      rw [hxe]
      exact hother x.2 (lt_trans hxt htlen2) hx2
    rcases Nat.lt_or_ge i0 t with hit | hit
    · -- p0 is already in the heap; the step cannot remove it
      have hp0 : (vals.getD i0 none, i0) ∈ L := ih hit (le_of_lt htlen)
      by_cases hins : (decide (L.length < EXTREME_K)
          || cond (vals.getD t none) (topOf selB L).1) = true
      · rw [if_pos hins]
        by_cases hpop : EXTREME_K < ((vals.getD t none, t) :: L).length
        · rw [if_pos hpop]
          refine survive_pop selB htr htot hirr _ _ hfinL2
            (List.mem_cons_of_mem _ hp0) ?_ (vals.getD t none, t)
            (List.mem_cons_self _ _) ?_
          · intro x hx hne
            rcases List.mem_cons.1 hx with rfl | hx2
            · exact hother t htlen2 (by omega)
            · exact hLother x hx2 hne
          · intro he
            have h2 : t = i0 := congrArg Prod.snd he
            omega
        · rw [if_neg hpop]
          exact List.mem_cons_of_mem _ hp0
      · rw [if_neg hins]
        exact hp0
    · -- i0 = t: the insertion step; the heap is not full, or its top is
      -- a valid pair that the best row's value beats
      have hteq : i0 = t := by omega
      subst hteq
      have hins : (decide (L.length < EXTREME_K)
          || cond (vals.getD i0 none) (topOf selB L).1) = true := by
        rcases Nat.lt_or_ge L.length EXTREME_K with h | h
        · rw [decide_eq_true h, Bool.true_or]
        · have hLpos : 0 < L.length :=
            lt_of_lt_of_le (by decide : 0 < EXTREME_K) h
          have htopmem : topOf selB L ∈ L := topOf_mem selB L (List.length_pos.1 hLpos)
          obtain ⟨hjt, hje⟩ := hvalid _ htopmem
          rw [Bool.or_eq_true]
          right
          have h1 : (topOf selB L).1 = vals.getD (topOf selB L).2 none :=
            congrArg Prod.fst hje
          rw [h1]
          exact hcond (topOf selB L).2 (lt_trans hjt htlen2) (by omega)
      rw [if_pos hins]
      by_cases hpop : EXTREME_K < ((vals.getD i0 none, i0) :: L).length
      · rw [if_pos hpop]
        have hLpos : 0 < L.length := by
          simp only [List.length_cons] at hpop
          have : (10:ℕ) ≤ L.length := by
            have h2 : EXTREME_K ≤ L.length := by omega
            simpa [EXTREME_K] using h2
          omega
        obtain ⟨b, hbL⟩ := List.exists_mem_of_length_pos hLpos
        have hbne : b ≠ (vals.getD i0 none, i0) := by
          intro he
          have hb2 := (hvalid b hbL).1
          rw [he] at hb2
          exact lt_irrefl i0 hb2
        refine survive_pop selB htr htot hirr _ _ hfinL2
          (List.mem_cons_self _ _) ?_ b (List.mem_cons_of_mem _ hbL) hbne
        intro x hx hne
        rcases List.mem_cons.1 hx with rfl | hx2
        · exact absurd rfl hne
        · exact hLother x hx2 hne
      · rw [if_neg hpop]
        exact List.mem_cons_self _ _

lemma getD_isSome_of_forall (axis : List F) (hfin : ∀ x ∈ axis, x.isSome = true) :
    ∀ j : ℕ, j < axis.length → (axis.getD j none).isSome = true := by
  intro j hj
  rw [List.getD_eq_getElem?_getD, List.getElem?_eq_getElem hj]
  exact hfin _ (List.getElem_mem hj)

/-- The strictly maximal row of an all-finite axis survives in the
`topK` min-heap. -/
lemma topHeap_keeps_argmax (axis : List F) (iMax : ℕ)
    (hfin : ∀ x ∈ axis, x.isSome = true) (hiMax : iMax < axis.length)
    (huniq : ∀ j : ℕ, j < axis.length → j ≠ iMax →
      fltB (axis.getD j none) (axis.getD iMax none) = true) :
    iMax ∈ (topHeap axis).map Prod.snd := by
  have hmem : (axis.getD iMax none, iMax) ∈ topHeap axis := by
    unfold topHeap
    refine heapFold_keeps_best minSel condTop axis
      (fun x y z hx hy hz => pairLtB_trans x y z hx hy hz)
      (fun x y hx hy => pairLtB_conn x y hx hy)
      (fun x => pairLtB_irrefl x)
      (getD_isSome_of_forall axis hfin) iMax ?_ ?_ axis.length hiMax (le_refl _)
    · intro j hj hne
      show pairLtB (axis.getD j none, j) (axis.getD iMax none, iMax) = true
      unfold pairLtB
      rw [huniq j hj hne, Bool.true_or]
    · intro j hj hne
      exact huniq j hj hne
  exact List.mem_map.2 ⟨_, hmem, rfl⟩

/-- The strictly minimal row of an all-finite axis survives in the
`bottomK` max-heap. -/
lemma bottomHeap_keeps_argmin (axis : List F) (iMin : ℕ)
    (hfin : ∀ x ∈ axis, x.isSome = true) (hiMin : iMin < axis.length)
    (huniq : ∀ j : ℕ, j < axis.length → j ≠ iMin →
      fltB (axis.getD iMin none) (axis.getD j none) = true) :
    iMin ∈ (bottomHeap axis).map Prod.snd := by
  have hmem : (axis.getD iMin none, iMin) ∈ bottomHeap axis := by
    unfold bottomHeap
    refine heapFold_keeps_best maxSel condBottom axis
      (fun x y z hx hy hz h1 h2 => pairLtB_trans z y x hz hy hx h2 h1)
      (fun x y hx hy h1 h2 => (pairLtB_conn y x hy hx h1 h2).symm)
      (fun x => pairLtB_irrefl x)
      (getD_isSome_of_forall axis hfin) iMin ?_ ?_ axis.length hiMin (le_refl _)
    · intro j hj hne
      show pairLtB (axis.getD iMin none, iMin) (axis.getD j none, j) = true
      unfold pairLtB
      rw [huniq j hj hne, Bool.true_or]
    · intro j hj hne
      exact huniq j hj hne
  exact List.mem_map.2 ⟨_, hmem, rfl⟩

/-- `viewIndex * 42 + 7`: the deterministic per-view seed. -/
def displaySeed (viewIndex : ℕ) : ℕ := viewIndex * 42 + 7

/-- One iteration of the reservoir-sampling loop over rows not already
in `mustInclude`: fill the reservoir up to `budget`, then replace slot
`j = rand(seed, draws, seen)` when `j < budget`.  State:
`(reservoir, seen, draws)`. -/
def reservoirStep (rand : ℕ → ℕ → ℕ → ℕ) (seed budget : ℕ)
    (mustInclude : List ℕ) (st : List ℕ × ℕ × ℕ) (i : ℕ) : List ℕ × ℕ × ℕ :=
  if i ∈ mustInclude then st
  else if st.1.length < budget then (st.1 ++ [i], st.2.1 + 1, st.2.2)
  else
    let j := rand seed st.2.2 st.2.1
    ((if j < budget then st.1.set j i else st.1), st.2.1 + 1, st.2.2 + 1)

/-- The `UpdatePlot` subsampling block, with the display budget and the
seeded random stream as parameters: find the per-axis extreme rows,
deduplicate them, reservoir-sample the remaining budget from the other
rows, and return the sorted index set.  Empty when no subsampling is
needed (`numRows ≤ budget`). -/
def buildDisplaySetWith (rand : ℕ → ℕ → ℕ → ℕ) (maxPoints viewIndex numRows : ℕ)
    (axes : List (List F)) : List ℕ :=
  if numRows ≤ maxPoints then []
  else
    let mustInclude := axes.foldl (fun acc a => acc ++ findExtremes a) []
    let mustInclude := (List.insertionSort (· ≤ ·) mustInclude).dedup
    let budget := maxPoints - mustInclude.length
    let seed := displaySeed viewIndex
    let res := (List.range numRows).foldl
      (reservoirStep rand seed budget mustInclude) ([], 0, 0)
    List.insertionSort (· ≤ ·) (mustInclude ++ res.1)

/-- `MAX_DISPLAY_POINTS`: the display budget of `UpdatePlot`. -/
def MAX_DISPLAY_POINTS : ℕ := 4000000

/-- The subsampling block at the source's fixed budget. -/
def buildDisplaySet (rand : ℕ → ℕ → ℕ → ℕ) (viewIndex numRows : ℕ)
    (axes : List (List F)) : List ℕ :=
  buildDisplaySetWith rand MAX_DISPLAY_POINTS viewIndex numRows axes

lemma mem_foldl_append_mono :
    ∀ (axes : List (List F)) (acc : List ℕ) (k : ℕ), k ∈ acc →
      k ∈ axes.foldl (fun acc a => acc ++ findExtremes a) acc := by
  intro axes
  induction axes with
  | nil => intro acc k hk; exact hk
  | cons a axes ih =>
    intro acc k hk
    rw [List.foldl_cons]
    exact ih _ k (List.mem_append_left _ hk)

lemma mem_foldl_append_of_mem :
    ∀ (axes : List (List F)) (acc : List ℕ) (ax : List F), ax ∈ axes →
      ∀ k ∈ findExtremes ax,
        k ∈ axes.foldl (fun acc a => acc ++ findExtremes a) acc := by
  intro axes
  induction axes with
  | nil => intro acc ax hax; exact absurd hax (List.not_mem_nil ax)
  | cons a axes ih =>
    intro acc ax hax k hk
    rw [List.foldl_cons]
    rcases List.mem_cons.1 hax with rfl | hax2
    · exact mem_foldl_append_mono axes _ k (List.mem_append_right _ hk)
    · exact ih _ ax hax2 k hk

/-- **C5.**  For every axis of a view whose row count exceeds the
display budget, provided the axis values are all finite, the row that
is strictly maximal and the row that is strictly minimal on that axis
always appear in the subsampled display index set, whatever the random
stream chooses. -/
theorem buildDisplaySet_extremes_preserved (rand : ℕ → ℕ → ℕ → ℕ)
    (maxPoints viewIndex numRows : ℕ) (axes : List (List F)) (axis : List F)
    (iMax iMin : ℕ)
    (hax : axis ∈ axes) (hlen : axis.length = numRows)
    (hfin : ∀ x ∈ axis, x.isSome = true)
    (hiMax : iMax < numRows)
    (hMaxUniq : ∀ j : ℕ, j < numRows → j ≠ iMax →
      fltB (axis.getD j none) (axis.getD iMax none) = true)
    (hiMin : iMin < numRows)
    (hMinUniq : ∀ j : ℕ, j < numRows → j ≠ iMin →
      fltB (axis.getD iMin none) (axis.getD j none) = true)
    (hbig : maxPoints < numRows) :
    iMax ∈ buildDisplaySetWith rand maxPoints viewIndex numRows axes ∧
      iMin ∈ buildDisplaySetWith rand maxPoints viewIndex numRows axes := by
  have hmax : iMax ∈ findExtremes axis :=
    List.mem_append_right _
      (topHeap_keeps_argmax axis iMax hfin (by omega)
        (by rw [hlen]; exact hMaxUniq))
  have hmin : iMin ∈ findExtremes axis :=
    List.mem_append_left _
      (bottomHeap_keeps_argmin axis iMin hfin (by omega)
        (by rw [hlen]; exact hMinUniq))
  have hmem : ∀ k, k ∈ findExtremes axis →
      k ∈ buildDisplaySetWith rand maxPoints viewIndex numRows axes := by
    intro k hk
    unfold buildDisplaySetWith
    rw [if_neg (by omega)]
    dsimp only
    apply (List.mem_insertionSort _).2
    apply List.mem_append_left
    apply List.mem_dedup.2
    apply (List.mem_insertionSort _).2
    exact mem_foldl_append_of_mem axes [] axis hax k hk
  exact ⟨hmem _ hmax, hmem _ hmin⟩

/-- **C5 witness**: three rows, budget two, one axis `[0, 1, 2]` shared
by x and y; rows 2 (maximum) and 0 (minimum) are both retained. -/
theorem buildDisplaySet_extremes_preserved_witness :
    2 ∈ buildDisplaySetWith (fun _ _ _ => 0) 2 0 3
        [[some 0, some 1, some 2], [some 0, some 1, some 2]] ∧
      0 ∈ buildDisplaySetWith (fun _ _ _ => 0) 2 0 3
        [[some 0, some 1, some 2], [some 0, some 1, some 2]] :=
  buildDisplaySet_extremes_preserved (fun _ _ _ => 0) 2 0 3
    [[some 0, some 1, some 2], [some 0, some 1, some 2]]
    [some 0, some 1, some 2] 2 0
    (by decide) (by decide) (by decide) (by decide) (by decide) (by decide)
    (by decide) (by decide)

/-- **C8.**  The display index set is a pure function of the random
stream (itself seeded with the view-dependent seed `viewIndex*42+7`),
the budget, the view index, the row count and the normalized axis
values: two builds with equal inputs yield identical index sequences,
and the output is sorted ascending. -/
theorem buildDisplaySet_deterministic_and_sorted
    (rand rand2 : ℕ → ℕ → ℕ → ℕ) (mp mp2 v v2 n n2 : ℕ)
    (axes axes2 : List (List F))
    (hrand : rand2 = rand) (hmp : mp2 = mp) (hview : v2 = v) (hn : n2 = n)
    (haxes : axes2 = axes) :
    buildDisplaySetWith rand2 mp2 v2 n2 axes2
        = buildDisplaySetWith rand mp v n axes ∧
      displaySeed v = v * 42 + 7 ∧
      List.Sorted (· ≤ ·) (buildDisplaySetWith rand mp v n axes) := by
  subst hrand hmp hview hn haxes
  refine ⟨rfl, rfl, ?_⟩
  unfold buildDisplaySetWith
  split
  · exact List.sorted_nil
  · exact List.sorted_insertionSort _ _

/-- **C8 witness**: a concrete instantiation of the determinism and
sortedness statement. -/
theorem buildDisplaySet_deterministic_and_sorted_witness :
    buildDisplaySetWith (fun _ _ _ => 0) 1 0 2 [[some 0, some 1]]
        = buildDisplaySetWith (fun _ _ _ => 0) 1 0 2 [[some 0, some 1]] ∧
      displaySeed 0 = 0 * 42 + 7 ∧
      List.Sorted (· ≤ ·)
        (buildDisplaySetWith (fun _ _ _ => 0) 1 0 2 [[some 0, some 1]]) :=
  buildDisplaySet_deterministic_and_sorted (fun _ _ _ => 0) (fun _ _ _ => 0)
    1 1 0 0 2 2 [[some 0, some 1]] [[some 0, some 1]] rfl rfl rfl rfl rfl

/-! ## DataManager.cpp: the Column Store and ingestion (C2, C6, C7, C9)

`std::string` is modelled as `List Char` so that tokenizing and
category handling stay structurally recursive. -/

/-- A C++ string. -/
abbrev Str := List Char

/-- Per-column categorical metadata. -/
structure ColumnMeta where
  isCategorical : Bool := false
  categories : List Str := []
deriving DecidableEq

/-- The Column Store (`DataSet`): row-major floats plus labels and
per-column metadata. -/
structure DataSet where
  numRows : ℕ := 0
  numCols : ℕ := 0
  columnLabels : List Str := []
  columnMeta : List ColumnMeta := []
  data : List F := []
deriving DecidableEq

/-- `value(r, c) = data[r * numCols + c]`. -/
def DataSet.value (ds : DataSet) (r c : ℕ) : F :=
  ds.data.getD (r * ds.numCols + c) none

/-! ### Categorical encoding (C6) -/

/-- The category table of one categorical column: deduplicate the
observed tokens, then sort lexicographically (`uniqueStrings`). -/
def sortedUnique (raw : List Str) : List Str :=
  List.insertionSort (· ≤ ·) raw.dedup

/-- `indexMap[s]`: the zero-based position of a token in the sorted
category table. -/
def categoryIndexOf (raw : List Str) (s : Str) : ℕ :=
  @List.indexOf Str (instBEqOfDecidableEq) s (sortedUnique raw)

/-- The floats written back over the placeholder values of a
categorical column: the category index of each row's token. -/
def categoryValues (raw : List Str) : List F :=
  raw.map (fun s => some ((categoryIndexOf raw s : ℚ)))

/-- **C6.**  After categorical encoding, the category list is the
lexicographically sorted sequence of the distinct observed tokens, with
zero-based indices, and looking the stored index back up returns the
original token of every row. -/
theorem categorical_encoding_roundtrip (raw : List Str) (r : ℕ)
    (hr : r < raw.length) :
    List.Sorted (· ≤ ·) (sortedUnique raw) ∧
      (sortedUnique raw).Nodup ∧
      (∀ s : Str, s ∈ sortedUnique raw ↔ s ∈ raw) ∧
      (categoryValues raw).getD r none
        = some ((categoryIndexOf raw (raw.getD r []) : ℚ)) ∧
      (sortedUnique raw).getD (categoryIndexOf raw (raw.getD r [])) []
        = raw.getD r [] := by
  have hmemiff : ∀ s : Str, s ∈ sortedUnique raw ↔ s ∈ raw := by
    intro s
    unfold sortedUnique
    rw [List.mem_insertionSort, List.mem_dedup]
  refine ⟨List.sorted_insertionSort _ _,
    (List.perm_insertionSort _ _).nodup_iff.2 (List.nodup_dedup raw),
    hmemiff, ?_, ?_⟩
  · unfold categoryValues
    rw [List.getD_eq_getElem?_getD,
      List.getElem?_eq_getElem (by simpa using hr), List.getElem_map]
    have : raw[r] = raw.getD r [] := by
      rw [List.getD_eq_getElem?_getD, List.getElem?_eq_getElem hr]
      rfl
    rw [this]
    rfl
  · have hmem : raw.getD r [] ∈ raw := by
      rw [List.getD_eq_getElem?_getD, List.getElem?_eq_getElem hr]
      exact List.getElem_mem hr
    have hmem2 : raw.getD r [] ∈ sortedUnique raw := (hmemiff _).2 hmem
    have hlt : categoryIndexOf raw (raw.getD r []) < (sortedUnique raw).length :=
      List.indexOf_lt_length.2 hmem2
    rw [List.getD_eq_getElem?_getD, List.getElem?_eq_getElem hlt]
    have hgoal := List.getElem_indexOf
      (a := raw.getD r []) (l := sortedUnique raw) hlt
    unfold categoryIndexOf
    rw [hgoal]
    rfl

/-- **C6 witness**: the spec's own scenario column `x,y,x,z,z` at
row 1. -/
theorem categorical_encoding_roundtrip_witness :
    List.Sorted (· ≤ ·) (sortedUnique [['x'], ['y'], ['x'], ['z'], ['z']]) ∧
      (sortedUnique [['x'], ['y'], ['x'], ['z'], ['z']]).Nodup ∧
      (∀ s : Str, s ∈ sortedUnique [['x'], ['y'], ['x'], ['z'], ['z']]
        ↔ s ∈ [['x'], ['y'], ['x'], ['z'], ['z']]) ∧
      (categoryValues [['x'], ['y'], ['x'], ['z'], ['z']]).getD 1 none
        = some ((categoryIndexOf [['x'], ['y'], ['x'], ['z'], ['z']]
            (([['x'], ['y'], ['x'], ['z'], ['z']] : List Str).getD 1 []) : ℚ)) ∧
      (sortedUnique [['x'], ['y'], ['x'], ['z'], ['z']]).getD
          (categoryIndexOf [['x'], ['y'], ['x'], ['z'], ['z']]
            (([['x'], ['y'], ['x'], ['z'], ['z']] : List Str).getD 1 [])) []
        = ([['x'], ['y'], ['x'], ['z'], ['z']] : List Str).getD 1 [] :=
  categorical_encoding_roundtrip [['x'], ['y'], ['x'], ['z'], ['z']] 1 (by decide)

/-! ### Constant-column pruning (C7) -/

/-- Float `!=`: true when the values differ, and also true whenever
either side is NaN (IEEE semantics of the C++ comparison). -/
def fNeB (a b : F) : Bool :=
  match a, b with
  | some x, some y => decide (x ≠ y)
  | _, _ => true

/-- The constant-column test: every row from 1 on compares equal
(under float `!=` being false) to row 0. -/
def isConstantColB (ds : DataSet) (c : ℕ) : Bool :=
  (List.range (ds.numRows - 1)).all
    (fun k => ! fNeB (ds.value (k + 1) c) (ds.value 0 c))

/-- The indices of the surviving (non-constant) columns, in their
original order. -/
def keptColumns (ds : DataSet) : List ℕ :=
  (List.range ds.numCols).filter (fun c => ! isConstantColB ds c)

/-- Constant-column pruning: when any column is constant, rebuild
labels, metadata and data contiguously over the surviving columns. -/
def removeConstantColumns (ds : DataSet) : DataSet :=
  let kept := keptColumns ds
  if kept.length = ds.numCols then ds
  else
    { numRows := ds.numRows
      numCols := kept.length
      columnLabels := kept.map (fun c => ds.columnLabels.getD c [])
      columnMeta := kept.map (fun c => ds.columnMeta.getD c {})
      data := ((List.range ds.numRows).map
        (fun r => kept.map (fun c => ds.value r c))).flatten }

lemma map_getD_range {α : Type} (l : List α) (d : α) :
    (List.range l.length).map (fun c => l.getD c d) = l := by
  apply List.ext_getElem (by simp)
  intro i h1 h2
  rw [List.getElem_map, List.getElem_range, List.getD_eq_getElem?_getD,
    List.getElem?_eq_getElem h2]
  rfl

lemma getD_flatten_rows (rows : List (List F)) (m : ℕ)
    (hall : ∀ row ∈ rows, row.length = m) :
    ∀ (r c : ℕ), r < rows.length → c < m →
      rows.flatten.getD (r * m + c) none = (rows.getD r []).getD c none := by
  induction rows with
  | nil => intro r c hr; exact absurd hr (Nat.not_lt_zero r)
  | cons row rows ih =>
    intro r c hr hc
    rw [List.flatten_cons]
    have hrow : row.length = m := hall row (List.mem_cons_self _ _)
    cases r with
    | zero =>
      rw [List.getD_eq_getElem?_getD, List.getElem?_append_left (by omega)]
      simp only [Nat.zero_mul, Nat.zero_add]
      rw [← List.getD_eq_getElem?_getD]
      rfl
    | succ r =>
      have harith : (r + 1) * m + c = row.length + (r * m + c) := by
        rw [hrow]; ring
      rw [List.getD_eq_getElem?_getD, harith,
        List.getElem?_append_right (by omega)]
      have : row.length + (r * m + c) - row.length = r * m + c := by omega
      rw [this, ← List.getD_eq_getElem?_getD]
      exact ih (fun rw2 h2 => hall rw2 (List.mem_cons_of_mem _ h2)) r c
        (by simpa using hr) hc

/-- **C7.**  After constant-column pruning, the resulting Column Store
consists exactly of the non-constant columns, rebuilt contiguously in
their original order: a column index survives iff it is in range and
not constant (exact float equality against row 0), and every surviving
column's labels, metadata and data equal the originals. -/
theorem removeConstantColumns_spec (ds : DataSet)
    (hrows : 1 ≤ ds.numRows)
    (hlabels : ds.columnLabels.length = ds.numCols)
    (hmeta : ds.columnMeta.length = ds.numCols)
    (hdata : ds.data.length = ds.numRows * ds.numCols) :
    (removeConstantColumns ds).numRows = ds.numRows ∧
      (removeConstantColumns ds).numCols = (keptColumns ds).length ∧
      (removeConstantColumns ds).columnLabels
        = (keptColumns ds).map (fun c => ds.columnLabels.getD c []) ∧
      (removeConstantColumns ds).columnMeta
        = (keptColumns ds).map (fun c => ds.columnMeta.getD c {}) ∧
      (∀ c : ℕ, c ∈ keptColumns ds ↔
        c < ds.numCols ∧ isConstantColB ds c = false) ∧
      (∀ r c2 : ℕ, r < ds.numRows → c2 < (keptColumns ds).length →
        (removeConstantColumns ds).value r c2
          = ds.value r ((keptColumns ds).getD c2 0)) := by
  have hkept : ∀ c : ℕ, c ∈ keptColumns ds ↔
      c < ds.numCols ∧ isConstantColB ds c = false := by
    intro c
    unfold keptColumns
    rw [List.mem_filter, List.mem_range]
    constructor
    · rintro ⟨h1, h2⟩
      exact ⟨h1, by simpa using h2⟩
    · rintro ⟨h1, h2⟩
      exact ⟨h1, by simpa using h2⟩
  unfold removeConstantColumns
  dsimp only
  by_cases heq : (keptColumns ds).length = ds.numCols
  · rw [if_pos heq]
    have hall : ∀ c ∈ List.range ds.numCols, (! isConstantColB ds c) = true :=
      List.filter_length_eq_length.1 (by simpa [keptColumns] using heq)
    have hkeq : keptColumns ds = List.range ds.numCols := by
      unfold keptColumns
      exact List.filter_eq_self.2 hall
    refine ⟨rfl, heq.symm, ?_, ?_, hkept, ?_⟩
    · rw [hkeq, ← hlabels]
      exact (map_getD_range ds.columnLabels []).symm
    · rw [hkeq, ← hmeta]
      exact (map_getD_range ds.columnMeta {}).symm
    · intro r c2 hrlt hc2
      have hc2n : c2 < ds.numCols := heq ▸ hc2
      have hgd : (keptColumns ds).getD c2 0 = c2 := by
        rw [hkeq, List.getD_eq_getElem?_getD,
          List.getElem?_eq_getElem (by simpa using hc2n), List.getElem_range]
        rfl
      rw [hgd]
  · rw [if_neg heq]
    refine ⟨rfl, rfl, rfl, rfl, hkept, ?_⟩
    intro r c2 hrlt hc2
    have hklen : ∀ row ∈ (List.range ds.numRows).map
        (fun r => (keptColumns ds).map (fun c => ds.value r c)),
        row.length = (keptColumns ds).length := by
      intro row hrow
      rcases List.mem_map.1 hrow with ⟨r2, _, rfl⟩
      simp
    have hc2k : (keptColumns ds).getD c2 0 = (keptColumns ds)[c2] := by
      rw [List.getD_eq_getElem?_getD, List.getElem?_eq_getElem hc2]
      rfl
    show (((List.range ds.numRows).map
        (fun r => (keptColumns ds).map (fun c => ds.value r c))).flatten).getD
        (r * (keptColumns ds).length + c2) none
      = ds.value r ((keptColumns ds).getD c2 0)
    rw [getD_flatten_rows _ (keptColumns ds).length hklen r c2
      (by simpa using hrlt) hc2]
    rw [List.getD_eq_getElem?_getD ((List.range ds.numRows).map _) r,
      List.getElem?_eq_getElem (by simpa using hrlt), List.getElem_map,
      List.getElem_range]
    show ((keptColumns ds).map (fun c => ds.value r c)).getD c2 none
      = ds.value r ((keptColumns ds).getD c2 0)
    rw [List.getD_eq_getElem?_getD, List.getElem?_eq_getElem (by simpa using hc2),
      List.getElem_map, hc2k]
    rfl

/-- **C7 witness**: a 2-row, 2-column store whose first column is
constant; only the second survives. -/
theorem removeConstantColumns_spec_witness :
    (removeConstantColumns ⟨2, 2, [['a'], ['b']], [{}, {}],
        [some 1, some 3, some 1, some 4]⟩).numRows = 2 ∧
      (removeConstantColumns ⟨2, 2, [['a'], ['b']], [{}, {}],
        [some 1, some 3, some 1, some 4]⟩).numCols
        = (keptColumns ⟨2, 2, [['a'], ['b']], [{}, {}],
            [some 1, some 3, some 1, some 4]⟩).length ∧
      (removeConstantColumns ⟨2, 2, [['a'], ['b']], [{}, {}],
        [some 1, some 3, some 1, some 4]⟩).columnLabels
        = (keptColumns ⟨2, 2, [['a'], ['b']], [{}, {}],
            [some 1, some 3, some 1, some 4]⟩).map
          (fun c => (⟨2, 2, [['a'], ['b']], [{}, {}],
            [some 1, some 3, some 1, some 4]⟩ : DataSet).columnLabels.getD c []) ∧
      (removeConstantColumns ⟨2, 2, [['a'], ['b']], [{}, {}],
        [some 1, some 3, some 1, some 4]⟩).columnMeta
        = (keptColumns ⟨2, 2, [['a'], ['b']], [{}, {}],
            [some 1, some 3, some 1, some 4]⟩).map
          (fun c => (⟨2, 2, [['a'], ['b']], [{}, {}],
            [some 1, some 3, some 1, some 4]⟩ : DataSet).columnMeta.getD c {}) ∧
      (∀ c : ℕ, c ∈ keptColumns ⟨2, 2, [['a'], ['b']], [{}, {}],
          [some 1, some 3, some 1, some 4]⟩ ↔
        c < 2 ∧ isConstantColB ⟨2, 2, [['a'], ['b']], [{}, {}],
          [some 1, some 3, some 1, some 4]⟩ c = false) ∧
      (∀ r c2 : ℕ, r < 2 → c2 < (keptColumns ⟨2, 2, [['a'], ['b']], [{}, {}],
          [some 1, some 3, some 1, some 4]⟩).length →
        (removeConstantColumns ⟨2, 2, [['a'], ['b']], [{}, {}],
          [some 1, some 3, some 1, some 4]⟩).value r c2
          = (⟨2, 2, [['a'], ['b']], [{}, {}],
            [some 1, some 3, some 1, some 4]⟩ : DataSet).value r
            ((keptColumns ⟨2, 2, [['a'], ['b']], [{}, {}],
              [some 1, some 3, some 1, some 4]⟩).getD c2 0)) :=
  removeConstantColumns_spec ⟨2, 2, [['a'], ['b']], [{}, {}],
    [some 1, some 3, some 1, some 4]⟩
    (by decide) (by decide) (by decide) (by decide)

/-! ### CSV export of categorical cells (C9) -/

/-- `static_cast<int>` of a finite float: truncation toward zero. -/
def ratTrunc (q : ℚ) : ℤ :=
  if 0 ≤ q then ((q.num.toNat / q.den : ℕ) : ℤ)
  else -(((-q).num.toNat / (-q).den : ℕ) : ℤ)

/-- The clamped category index of `saveAsCsv`:
`max(0, min((int)val, (int)cats.size() - 1))`. -/
def clampCatIndex (cats : List Str) (val : ℚ) : ℕ :=
  (max 0 (min (ratTrunc val) ((cats.length : ℤ) - 1))).toNat

/-- The token `saveAsCsv` writes for a categorical cell. -/
def saveCsvCatCell (cats : List Str) (val : ℚ) : Str :=
  cats.getD (clampCatIndex cats val) []

/-- **C9.**  For a categorical column with a nonempty category table,
the clamped index is always inside `[0, categories.size() - 1]`, so the
category lookup is never out of bounds and the token written is always
one of the column's category strings — whatever the stored float value
(negative, too large, or non-integral). -/
theorem saveCsvCatCell_safe (cats : List Str) (val : ℚ) (hne : cats ≠ []) :
    clampCatIndex cats val < cats.length ∧ saveCsvCatCell cats val ∈ cats := by
  have hlen : 1 ≤ cats.length := List.length_pos.2 hne
  have hlenZ : (1 : ℤ) ≤ (cats.length : ℤ) := by exact_mod_cast hlen
  have hidx : clampCatIndex cats val < cats.length := by
    unfold clampCatIndex
    have h1 : min (ratTrunc val) ((cats.length : ℤ) - 1) ≤ (cats.length : ℤ) - 1 :=
      min_le_right _ _
    have h2 : max 0 (min (ratTrunc val) ((cats.length : ℤ) - 1))
        ≤ (cats.length : ℤ) - 1 := max_le (by omega) h1
    omega
  refine ⟨hidx, ?_⟩
  unfold saveCsvCatCell
  rw [List.getD_eq_getElem?_getD, List.getElem?_eq_getElem hidx]
  exact List.getElem_mem hidx

/-- **C9 witness**: a non-integral, out-of-range stored value `7.5`
against a two-category table still yields an in-bounds lookup. -/
theorem saveCsvCatCell_safe_witness :
    clampCatIndex [['a'], ['b']] (75/10) < 2 ∧
      saveCsvCatCell [['a'], ['b']] (75/10) ∈ [['a'], ['b']] :=
  saveCsvCatCell_safe [['a'], ['b']] (75/10) (by decide)

/-! ### The ASCII loader and cancellation (C2) -/

/-- The whitespace characters trimmed/split on by the text reader
(space and tab; line terminators are already consumed by `getline`). -/
def isWsB (c : Char) : Bool := c = ' ' || c = '\t'

/-- Whitespace-run tokenization (`ss >> token`), fuel-driven so the
recursion is structural. -/
def splitWsAux : ℕ → Str → List Str
  | 0, _ => []
  | _, [] => []
  | fuel + 1, c :: rest =>
    if isWsB c then splitWsAux fuel rest
    else
      (c :: rest).takeWhile (fun d => ! isWsB d) ::
        splitWsAux fuel ((c :: rest).dropWhile (fun d => ! isWsB d))

/-- Whitespace-run tokenization of a line. -/
def splitWs (l : Str) : List Str := splitWsAux l.length l

/-- Trim spaces and tabs from both ends of a token. -/
def trimST (s : Str) : Str :=
  ((s.dropWhile isWsB).reverse.dropWhile isWsB).reverse

/-- `splitTokens`: whitespace-run splitting for the whitespace
delimiter, otherwise `getline`-style splitting on the delimiter
character with per-token trimming (a trailing delimiter yields no
trailing empty token, matching the `getline` loop). -/
def splitTokens (line : Str) (delim : Char) : List Str :=
  if delim = ' ' then splitWs line
  else if line = [] then []
  else
    let raw := line.splitOn delim
    let raw := if line.getLast? = some delim then raw.dropLast else raw
    raw.map trimST

/-- A comment line: empty, or starting with `#`, `!` or `%`. -/
def isCommentLine (line : Str) : Bool :=
  match line with
  | [] => true
  | c :: _ => c = '#' || c = '!' || c = '%'

/-- Strip one trailing carriage return (Windows line endings). -/
def stripCR (line : Str) : Str :=
  if line.getLast? = some '\x0d' then line.dropLast else line

/-- The sentinel tokens parsed as `0.0` by the numeric path. -/
def isSpecialTok (tok : Str) : Bool :=
  tok = "NaN".toList || tok = "nan".toList || tok = "NAN".toList ||
    tok = "NA".toList || tok = "na".toList || tok = "inf".toList ||
    tok = "-inf".toList

/-- The `DataManager` fields the loader touches. -/
structure DMState where
  m_error : Str := []
  m_data : DataSet := {}
deriving DecidableEq

/-- The in-flight state of the row-reading phase. -/
structure ParseState where
  ds : DataSet
  candidateCategorical : List Bool
  rawStrings : List (List Str)
  firstDataRow : Bool
deriving DecidableEq

/-- Convert one token of one column: numeric parse with sentinel
handling, categorical capture (on the first data row a failed numeric
parse marks the column categorical), and the placeholder float. -/
def parseCell (parseNum : Str → Option ℚ) (tokens : List Str)
    (acc : ParseState) (col : ℕ) : ParseState :=
  let tok := tokens.getD col []
  let res : F × List Bool × List (List Str) :=
    if tok = [] then
      (some 0, acc.candidateCategorical,
        if acc.candidateCategorical.getD col false then
          acc.rawStrings.set col (acc.rawStrings.getD col [] ++ [tok])
        else acc.rawStrings)
    else if acc.candidateCategorical.getD col false then
      (some 0, acc.candidateCategorical,
        acc.rawStrings.set col (acc.rawStrings.getD col [] ++ [tok]))
    else if isSpecialTok tok then
      (some 0, acc.candidateCategorical, acc.rawStrings)
    else
      match parseNum tok with
      | some dval => (some dval, acc.candidateCategorical, acc.rawStrings)
      | none =>
        if acc.firstDataRow then
          (some 0, acc.candidateCategorical.set col true,
            acc.rawStrings.set col (acc.rawStrings.getD col [] ++ [tok]))
        else (some 0, acc.candidateCategorical, acc.rawStrings)
  { ds := { acc.ds with data := acc.ds.data ++ [res.1] },
    candidateCategorical := res.2.1,
    rawStrings := res.2.2,
    firstDataRow := acc.firstDataRow }

/-- `parseLine`: skip short lines, otherwise convert every column and
count the row. -/
def parseLine (parseNum : Str → Option ℚ) (st : ParseState)
    (tokens : List Str) : ParseState :=
  if tokens.length < st.ds.numCols then st
  else
    let st2 := (List.range st.ds.numCols).foldl (parseCell parseNum tokens) st
    { st2 with
      ds := { st2.ds with numRows := st2.ds.numRows + 1 },
      firstDataRow := false }

/-- Phase 2 of `loadAsciiFile`: read data lines, tracking bytes read
and calling the progress callback every 10,000 parsed lines; a `false`
return cancels.  Result: `(state, linesRead, bytesRead, cancelled)`. -/
def readLoop (parseNum : Str → Option ℚ) (delim : Char)
    (progress : ℕ → ℕ → Bool) (maxRows totalBytes : ℕ) :
    List Str → ParseState → ℕ → ℕ → ParseState × ℕ × ℕ × Bool
  | [], st, linesRead, bytesRead => (st, linesRead, bytesRead, false)
  | line :: rest, st, linesRead, bytesRead =>
    let bytesRead := bytesRead + line.length + 1
    let line := stripCR line
    if isCommentLine line then
      readLoop parseNum delim progress maxRows totalBytes rest st linesRead bytesRead
    else
      let st := parseLine parseNum st (splitTokens line delim)
      let linesRead := linesRead + 1
      if 0 < maxRows ∧ maxRows ≤ st.ds.numRows then (st, linesRead, bytesRead, false)
      else if linesRead % 10000 = 0 then
        if progress bytesRead totalBytes then
          readLoop parseNum delim progress maxRows totalBytes rest st linesRead bytesRead
        else (st, linesRead, bytesRead, true)
      else
        readLoop parseNum delim progress maxRows totalBytes rest st linesRead bytesRead

/-- Phase 1 of `loadAsciiFile`: skip the leading comment block,
remembering the last nonempty comment line; `none` when the file is
empty (only the empty `line` variable remains at end of file). -/
def phase1 : List Str → Str → Str → Option (Str × Str × List Str)
  | [], lineVar, lastC => if lineVar = [] then none else some (lineVar, lastC, [])
  | l :: rest, _, lastC =>
    let l2 := stripCR l
    if isCommentLine l2 then
      phase1 rest l2 (if l2 ≠ [] then l2 else lastC)
    else some (l2, lastC, rest)

/-- Default column label `Column_<i>`. -/
def defaultLabel (i : ℕ) : Str := "Column_".toList ++ Nat.toDigits 10 i

/-- Overwrite one categorical column's placeholder floats with its
category indices and record its metadata. -/
def applyCategoryColumn (ds : DataSet) (col : ℕ) (raw : List Str) : DataSet :=
  { ds with
    data := (List.range ds.numRows).foldl
      (fun d r => d.set (r * ds.numCols + col)
        (some ((categoryIndexOf raw (raw.getD r []) : ℚ)))) ds.data,
    columnMeta := ds.columnMeta.set col
      { isCategorical := true, categories := sortedUnique raw } }

/-- Phase 3 of `loadAsciiFile`: encode every confirmed categorical
column. -/
def encodeCategoricals (st : ParseState) : DataSet :=
  let ds0 := { st.ds with columnMeta := List.replicate st.ds.numCols {} }
  (List.range ds0.numCols).foldl
    (fun ds col =>
      if st.candidateCategorical.getD col false = true
          ∧ st.rawStrings.getD col [] ≠ [] then
        applyCategoryColumn ds col (st.rawStrings.getD col [])
      else ds) ds0

/-- `loadAsciiFile`, over pre-read lines: the previously loaded store
is replaced by an empty one up front; then label detection, the data
row loop (with cancellation), categorical encoding and constant-column
pruning.  Returns the final `DataManager` state and the success flag. -/
def loadAscii (parseNum : Str → Option ℚ) (delim : Char) (dm : DMState)
    (lines : List Str) (progress : ℕ → ℕ → Bool) (maxRows : ℕ) :
    DMState × Bool :=
  let dm := { dm with m_error := ([] : Str), m_data := {} }
  let totalBytes := (lines.map (fun l => l.length + 1)).sum
  match phase1 lines [] [] with
  | none => ({ dm with m_error := "File is empty or contains only comments".toList }, false)
  | some (line, lastComment, rest) =>
    let tokens := splitTokens line delim
    if tokens = [] then ({ dm with m_error := "No data found in file".toList }, false)
    else
      let firstLineIsLabels := tokens.all (fun t => (parseNum t).isNone)
      let fromComment : List Str :=
        if lastComment ≠ [] then
          let labelTokens := splitTokens (lastComment.drop 1) delim
          if labelTokens.length = tokens.length then labelTokens else []
        else []
      let labels :=
        if firstLineIsLabels then tokens
        else if fromComment ≠ [] then fromComment
        else (List.range tokens.length).map (fun i => defaultLabel (i + 1))
      let firstDataLine := if firstLineIsLabels then ([] : Str) else line
      let ds0 : DataSet :=
        { numRows := 0, numCols := labels.length, columnLabels := labels,
          columnMeta := [], data := [] }
      let st0 : ParseState :=
        { ds := ds0,
          candidateCategorical := List.replicate labels.length false,
          rawStrings := List.replicate labels.length [],
          firstDataRow := true }
      let st1 := if firstDataLine ≠ [] then
          parseLine parseNum st0 (splitTokens firstDataLine delim)
        else st0
      let r := readLoop parseNum delim progress maxRows totalBytes rest st1 0 0
      if r.2.2.2 = true then
        ({ m_error := "Loading cancelled".toList, m_data := r.1.ds }, false)
      else if r.1.ds.numRows = 0 then
        ({ m_error := "No valid data rows found".toList, m_data := r.1.ds }, false)
      else
        ({ m_error := ([] : Str),
           m_data := removeConstantColumns (encodeCategoricals r.1) }, true)

lemma parseCell_ds_numRows (pn : Str → Option ℚ) (tokens : List Str)
    (acc : ParseState) (col : ℕ) :
    (parseCell pn tokens acc col).ds.numRows = acc.ds.numRows := rfl

lemma parseCell_ds_numCols (pn : Str → Option ℚ) (tokens : List Str)
    (acc : ParseState) (col : ℕ) :
    (parseCell pn tokens acc col).ds.numCols = acc.ds.numCols := rfl

lemma foldl_parseCell_preserves (pn : Str → Option ℚ) (tokens : List Str) :
    ∀ (cols : List ℕ) (acc : ParseState),
      (cols.foldl (parseCell pn tokens) acc).ds.numRows = acc.ds.numRows ∧
        (cols.foldl (parseCell pn tokens) acc).ds.numCols = acc.ds.numCols := by
  intro cols
  induction cols with
  | nil => intro acc; exact ⟨rfl, rfl⟩
  | cons c cols ih =>
    intro acc
    rw [List.foldl_cons]
    obtain ⟨h1, h2⟩ := ih (parseCell pn tokens acc c)
    exact ⟨h1.trans (parseCell_ds_numRows pn tokens acc c),
      h2.trans (parseCell_ds_numCols pn tokens acc c)⟩

lemma parseLine_spec (pn : Str → Option ℚ) (st : ParseState)
    (tokens : List Str) (h : st.ds.numCols ≤ tokens.length) :
    (parseLine pn st tokens).ds.numRows = st.ds.numRows + 1 ∧
      (parseLine pn st tokens).ds.numCols = st.ds.numCols := by
  unfold parseLine
  rw [if_neg (by omega)]
  obtain ⟨h1, h2⟩ :=
    foldl_parseCell_preserves pn tokens (List.range st.ds.numCols) st
  dsimp only
  rw [h1, h2]
  exact ⟨rfl, rfl⟩

/-- A data line that actually contributes a row: not a comment, and
with at least `nc` tokens. -/
def goodLineB (pn : Str → Option ℚ) (delim : Char) (nc : ℕ) (l : Str) : Bool :=
  ! isCommentLine (stripCR l)
    && decide (nc ≤ (splitTokens (stripCR l) delim).length)

/-- If the next `10000 - linesRead` lines are all good data lines and
the callback always refuses, the read loop cancels exactly at the
10,000-line checkpoint, with all those rows already ingested into the
state it returns. -/
lemma readLoop_cancelled (pn : Str → Option ℚ) (delim : Char)
    (totalBytes nc : ℕ) :
    ∀ (lines : List Str) (st : ParseState) (linesRead bytesRead : ℕ),
      st.ds.numCols = nc →
      (∀ l ∈ lines, goodLineB pn delim nc l = true) →
      linesRead < 10000 → linesRead + lines.length = 10000 →
      (readLoop pn delim (fun _ _ => false) 0 totalBytes
          lines st linesRead bytesRead).2.2.2 = true ∧
        (readLoop pn delim (fun _ _ => false) 0 totalBytes
          lines st linesRead bytesRead).1.ds.numRows
            = st.ds.numRows + lines.length ∧
        (readLoop pn delim (fun _ _ => false) 0 totalBytes
          lines st linesRead bytesRead).1.ds.numCols = nc := by
  intro lines
  induction lines with
  | nil =>
    intro st lr br _ _ hlt hsum
    exfalso
    simp only [List.length_nil] at hsum
    omega
  | cons l rest ih =>
    intro st lr br hnc hg hlt hsum
    have hgl := hg l (List.mem_cons_self _ _)
    simp only [goodLineB, Bool.and_eq_true, Bool.not_eq_true',
      decide_eq_true_eq] at hgl
    obtain ⟨hgc, hgt⟩ := hgl
    simp only [readLoop]
    rw [if_neg (by rw [hgc]; exact Bool.false_ne_true)]
    obtain ⟨hr1, hr2⟩ := parseLine_spec pn st (splitTokens (stripCR l) delim)
      (by rw [hnc]; exact hgt)
    rw [if_neg (fun hcon => lt_irrefl 0 hcon.1)]
    rcases Nat.lt_or_ge (lr + 1) 10000 with hlt2 | hge
    · rw [if_neg (by rw [Nat.mod_eq_of_lt hlt2]; omega)]
      obtain ⟨c1, c2, c3⟩ := ih (parseLine pn st (splitTokens (stripCR l) delim))
        (lr + 1) (br + l.length + 1) (by rw [hr2, hnc])
        (fun l2 h2 => hg l2 (List.mem_cons_of_mem _ h2)) hlt2
        (by simp only [List.length_cons] at hsum; omega)
      refine ⟨c1, ?_, c3⟩
      rw [c2, hr1]
      simp only [List.length_cons]
      omega
    · have heq : lr + 1 = 10000 := by omega
      rw [if_pos (by rw [heq])]
      rw [if_neg Bool.false_ne_true]
      refine ⟨rfl, ?_, by rw [hr2]; exact hnc⟩
      show (parseLine pn st (splitTokens (stripCR l) delim)).ds.numRows
        = st.ds.numRows + (l :: rest).length
      rw [hr1]
      simp only [List.length_cons]
      simp only [List.length_cons] at hsum
      omega

/-- The core cancellation behavior of `loadAscii`: a labels line
followed by 10,000 good data lines under an always-refusing callback
aborts with the `Loading cancelled` error, with the 10,000 already
parsed rows left in the store. -/
lemma loadAscii_cancel_helper (pn : Str → Option ℚ) (delim : Char)
    (dm : DMState) (hdr : Str) (body : List Str)
    (hc : isCommentLine (stripCR hdr) = false)
    (ht : ¬ splitTokens (stripCR hdr) delim = [])
    (hlb : (splitTokens (stripCR hdr) delim).all (fun t => (pn t).isNone) = true)
    (hg : ∀ l ∈ body, goodLineB pn delim
      (splitTokens (stripCR hdr) delim).length l = true)
    (hlen : body.length = 10000) :
    (loadAscii pn delim dm (hdr :: body) (fun _ _ => false) 0).2 = false ∧
      (loadAscii pn delim dm (hdr :: body) (fun _ _ => false) 0).1.m_error
        = "Loading cancelled".toList ∧
      (loadAscii pn delim dm (hdr :: body) (fun _ _ => false) 0).1.m_data.numRows
        = 10000 := by
  have hph : phase1 (hdr :: body) [] [] = some (stripCR hdr, [], body) := by
    simp only [phase1]
    rw [if_neg (by rw [hc]; exact Bool.false_ne_true)]
  obtain ⟨hcan, hrows, _⟩ := readLoop_cancelled pn delim
    (((hdr :: body).map (fun l => l.length + 1)).sum)
    (splitTokens (stripCR hdr) delim).length body
    ⟨⟨0, (splitTokens (stripCR hdr) delim).length,
        splitTokens (stripCR hdr) delim, [], []⟩,
      List.replicate (splitTokens (stripCR hdr) delim).length false,
      List.replicate (splitTokens (stripCR hdr) delim).length [], true⟩
    0 0 rfl hg (by omega) (by omega)
  unfold loadAscii
  rw [hph]
  dsimp only
  simp only [if_neg ht, hlb, ne_eq, eq_self_iff_true, not_true, ite_false,
    ite_true, reduceIte]
  rw [hcan]
  simp only [eq_self_iff_true, ite_true, reduceIte]
  refine ⟨trivial, trivial, ?_⟩
  dsimp only
  rw [hrows, hlen]

/-- Digits of a token as a natural number. -/
def natOfDigits (s : Str) : ℕ :=
  s.foldl (fun n c => 10 * n + (c.toNat - 48)) 0

/-- A simple concrete numeric parser (nonnegative integers only), used
to exercise the loader at concrete inputs. -/
def parseNum0 (s : Str) : Option ℚ :=
  if s ≠ [] ∧ s.all Char.isDigit then some ((natOfDigits s : ℕ) : ℚ) else none

/-- **C2 counterexample.**  The claim "cancellation leaves no partial
Column Store visible and the previously loaded store untouched" is
false: loading a file of one header line and 10,000 data lines under an
always-refusing callback returns the `Loading cancelled` error, but the
DataManager's store then holds the 10,000 partially ingested rows, and
the previously loaded one-row store is gone (it was replaced at the
start of the load). -/
theorem loadAscii_cancellation_not_isolated :
    (loadAscii parseNum0 ' ' ⟨[], ⟨1, 1, [['p']], [{}], [some 5]⟩⟩
        ("a".toList :: List.replicate 10000 "b".toList)
        (fun _ _ => false) 0).2 = false ∧
      (loadAscii parseNum0 ' ' ⟨[], ⟨1, 1, [['p']], [{}], [some 5]⟩⟩
        ("a".toList :: List.replicate 10000 "b".toList)
        (fun _ _ => false) 0).1.m_error = "Loading cancelled".toList ∧
      (loadAscii parseNum0 ' ' ⟨[], ⟨1, 1, [['p']], [{}], [some 5]⟩⟩
        ("a".toList :: List.replicate 10000 "b".toList)
        (fun _ _ => false) 0).1.m_data.numRows = 10000 ∧
      (loadAscii parseNum0 ' ' ⟨[], ⟨1, 1, [['p']], [{}], [some 5]⟩⟩
        ("a".toList :: List.replicate 10000 "b".toList)
        (fun _ _ => false) 0).1.m_data ≠ ⟨1, 1, [['p']], [{}], [some 5]⟩ := by
  obtain ⟨h1, h2, h3⟩ := loadAscii_cancel_helper parseNum0 ' '
    ⟨[], ⟨1, 1, [['p']], [{}], [some 5]⟩⟩ "a".toList
    (List.replicate 10000 "b".toList)
    (by decide) (by decide) (by decide)
    (fun l hl => by rw [List.eq_of_mem_replicate hl]; decide)
    (List.length_replicate _ _)
  refine ⟨h1, h2, h3, fun hcon => ?_⟩
  rw [hcon] at h3
  exact absurd h3 (by decide)

/-- **C2** (amended).  When the progress callback returns `false` at
the first checkpoint (after 10,000 ingested data lines), the load
aborts with the `Loading cancelled` error and reports failure — but the
partially ingested rows are visible in the DataManager's store, and the
outcome is identical whatever Column Store was previously loaded,
because the loader replaces the previous store with an empty one before
reading (the previous instance is not preserved). -/
theorem loadAscii_cancelled_partial (pn : Str → Option ℚ) (delim : Char)
    (dm dm2 : DMState) (hdr : Str) (body : List Str)
    (hc : isCommentLine (stripCR hdr) = false)
    (ht : ¬ splitTokens (stripCR hdr) delim = [])
    (hlb : (splitTokens (stripCR hdr) delim).all (fun t => (pn t).isNone) = true)
    (hg : ∀ l ∈ body, goodLineB pn delim
      (splitTokens (stripCR hdr) delim).length l = true)
    (hlen : body.length = 10000) :
    (loadAscii pn delim dm (hdr :: body) (fun _ _ => false) 0).2 = false ∧
      (loadAscii pn delim dm (hdr :: body) (fun _ _ => false) 0).1.m_error
        = "Loading cancelled".toList ∧
      (loadAscii pn delim dm (hdr :: body) (fun _ _ => false) 0).1.m_data.numRows
        = 10000 ∧
      loadAscii pn delim dm2 (hdr :: body) (fun _ _ => false) 0
        = loadAscii pn delim dm (hdr :: body) (fun _ _ => false) 0 := by
  obtain ⟨h1, h2, h3⟩ :=
    loadAscii_cancel_helper pn delim dm hdr body hc ht hlb hg hlen
  exact ⟨h1, h2, h3, rfl⟩

/-- **C2 witness**: the amended cancellation statement at a concrete
one-column file of 10,000 rows, starting from two different previous
stores. -/
theorem loadAscii_cancelled_partial_witness :
    (loadAscii parseNum0 ' ' ⟨[], ⟨1, 1, [['p']], [{}], [some 5]⟩⟩
        ("c".toList :: List.replicate 10000 "d".toList)
        (fun _ _ => false) 0).2 = false ∧
      (loadAscii parseNum0 ' ' ⟨[], ⟨1, 1, [['p']], [{}], [some 5]⟩⟩
        ("c".toList :: List.replicate 10000 "d".toList)
        (fun _ _ => false) 0).1.m_error = "Loading cancelled".toList ∧
      (loadAscii parseNum0 ' ' ⟨[], ⟨1, 1, [['p']], [{}], [some 5]⟩⟩
        ("c".toList :: List.replicate 10000 "d".toList)
        (fun _ _ => false) 0).1.m_data.numRows = 10000 ∧
      loadAscii parseNum0 ' ' ⟨[], {}⟩
          ("c".toList :: List.replicate 10000 "d".toList)
          (fun _ _ => false) 0
        = loadAscii parseNum0 ' ' ⟨[], ⟨1, 1, [['p']], [{}], [some 5]⟩⟩
          ("c".toList :: List.replicate 10000 "d".toList)
          (fun _ _ => false) 0 :=
  loadAscii_cancelled_partial parseNum0 ' '
    ⟨[], ⟨1, 1, [['p']], [{}], [some 5]⟩⟩ ⟨[], {}⟩ "c".toList
    (List.replicate 10000 "d".toList)
    (by decide) (by decide) (by decide)
    (fun l hl => by rw [List.eq_of_mem_replicate hl]; decide)
    (List.length_replicate _ _)

end VP
